import Mathlib

/-!
Shallow embedding of the analysis core of the packetry USB capture viewer
(sources: `src/tree_list_model.rs`, `src/capture.rs`), together with proofs
about the tree-model adapter and the capture store operations.

Machine integers (`u32`/`u64`) are modelled as `Nat`; the sizes involved in
the verified claims are counts and offsets for which the source relies on
no wrap-around behaviour (a failed `u32::try_from(...)` / out-of-range
index access is an `unwrap` panic in the source and is modelled by
`Option.none` / an explicit `panicked` outcome).  Fallible operations
(`HybridIndex::get`, `FileVec::get_range`, weak-reference upgrades) return
`Option`, with `none` standing for the panicking / failing executions.
-/

namespace Packetry

/-! ## Tree model (`src/tree_list_model.rs`)

`TreeNode` carries `item_index` (index of the node below the parent item),
`child_count` (total count of visible nodes below this node, recursively)
and `children`, the list of *expanded* child nodes directly below this
node, ordered by `item_index` (the source keeps them in a
`BTreeMap<u32, Rc<RefCell<TreeNode>>>`, iterated in ascending key order).
The `item : Option<Item>` and the parent weak reference of the source are
represented positionally: a node is designated by the path of
`item_index` keys leading to it from the root, so the capture item it
refers to is determined by that path. -/

inductive TreeNode : Type where
  | mk (item_index : Nat) (child_count : Nat) (children : List TreeNode) : TreeNode

def TreeNode.item_index : TreeNode → Nat
  | .mk i _ _ => i

def TreeNode.child_count : TreeNode → Nat
  | .mk _ c _ => c

def TreeNode.children : TreeNode → List TreeNode
  | .mk _ _ ch => ch

/-- Outcome of one pass of the `for (_, node_rc) in parent.children.iter()`
loop inside `TreeListModel::item` (`src/tree_list_model.rs` lines 209-227):
either the position falls before / after all expanded children and a fresh
node at the remaining offset is called for, or an expanded child is hit
exactly, or the search descends into an expanded child. -/
inductive ScanResult : Type where
  | fresh (offset : Nat)
  | found (node : TreeNode)
  | descend (node : TreeNode) (rel : Nat)

/-- The inner loop of `TreeListModel::item`: scan the expanded children in
`item_index` order, maintaining the running `relative_position`.
Translated case for case from `src/tree_list_model.rs` lines 209-227:
`rel < item_index` breaks out (fresh node), `rel == item_index` returns the
expanded child, `rel <= item_index + child_count` descends with
`rel - (item_index + 1)`, otherwise `rel -= child_count` and the scan
continues; an exhausted loop also falls through to the fresh-node case. -/
def descendStep : List TreeNode → Nat → ScanResult
  | [], rel => .fresh rel
  | c :: rest, rel =>
    if rel < c.item_index then .fresh rel
    else if rel = c.item_index then .found c
    else if rel ≤ c.item_index + c.child_count then .descend c (rel - (c.item_index + 1))
    else descendStep rest (rel - c.child_count)

theorem descendStep_descend_lt : ∀ {l : List TreeNode} {rel : Nat} {c : TreeNode} {r : Nat},
    descendStep l rel = ScanResult.descend c r → r < rel := by
  intro l
  induction l with
  | nil => intro rel c r h; simp [descendStep] at h
  | cons a rest ih =>
    intro rel c r h
    simp only [descendStep] at h
    split at h
    · exact absurd h (by simp)
    · split at h
      · exact absurd h (by simp)
      · split at h
        · rename_i h1 h2 _
          cases h
          have ha : a.item_index < rel := Nat.lt_of_le_of_ne (Nat.not_lt.mp h1) (Ne.symm h2)
          omega
        · have := ih h
          omega

/-- Result of the position lookup: either an already-expanded node (with the
path of its parent), or a fresh single-use node to be materialised as a
direct child of the node at `parentPath`, at offset `offset` below it. -/
inductive Row : Type where
  | expanded (parentPath : List Nat) (node : TreeNode)
  | fresh (parentPath : List Nat) (offset : Nat)

/-- The `'outer: loop` of `TreeListModel::item`: repeatedly scan the current
parent's expanded children, descending when the position falls inside an
expanded subtree.  `acc` records the `item_index` path of the current
parent (the source reaches the same information through the nodes' parent
references and `item` fields). -/
def lookupAux (acc : List Nat) (parent : TreeNode) (rel : Nat) : Row :=
  match h : descendStep parent.children rel with
  | .fresh off => Row.fresh acc off
  | .found c => Row.expanded acc c
  | .descend c r => lookupAux (acc ++ [c.item_index]) c r
termination_by rel
decreasing_by exact descendStep_descend_lt h

/-- `ListModelImpl::n_items` (`src/tree_list_model.rs` lines 188-190): the
root node's `child_count`. -/
def TreeListModel.n_items (root : TreeNode) : Nat :=
  root.child_count

/-- `ListModelImpl::item` (`src/tree_list_model.rs` lines 192-244): valid
positions are those below the root's `child_count`; for those the descent
loop produces a row.  The source's early `None` returns for an absent or
unlockable capture (lines 195-202) concern the GUI plumbing around the
model and are outside this embedding, which presumes an available capture
as the specification does. -/
def TreeListModel.item (root : TreeNode) (position : Nat) : Option Row :=
  if position < root.child_count then some (lookupAux [] root position) else none

/-! ## Capture store (`src/capture.rs`)

`HybridIndex` and `FileVec<T>` are modelled by their logical contents: a
`List Nat` (respectively a list of records).  `get` / `get_range` on them
are fallible in the source (`unwrap`ed, so a failure is a panic); here they
are `Option`-valued list accesses. -/

/-- `TransferIndexEntry` (`src/capture.rs` lines 57-73): packs
`transfer_id` (bits 0-51), `endpoint_id` (bits 52-62) and `is_start`
(bit 63) into a `u64`; modelled as a record of the three fields. -/
structure TransferIndexEntry : Type where
  transfer_id : Nat
  endpoint_id : Nat
  is_start : Bool

/-- `Endpoint` (`src/capture.rs` lines 48-55): `device_id` (bits 0-51),
`device_address` (bits 52-58), `number` (bits 59-63). -/
structure Endpoint : Type where
  device_id : Nat
  device_address : Nat
  number : Nat

/-- `EndpointTraffic` (`src/capture.rs` lines 98-101). -/
structure EndpointTraffic : Type where
  transaction_ids : List Nat
  transfer_index : List Nat

/-- `DeviceData` (`src/capture.rs` lines 103-109).  None of the verified
claims inspects its fields (only `device_data.len()` is used, by
`device_item_count`), so the record carries no fields here. -/
structure DeviceData : Type

/-- `Capture` (`src/capture.rs` lines 142-154), restricted to the fields
the verified operations read. -/
structure Capture : Type where
  item_index : List Nat
  packet_index : List Nat
  packet_data : List Nat
  transaction_index : List Nat
  transfer_index : List TransferIndexEntry
  device_data : List DeviceData
  endpoints : List Endpoint
  endpoint_traffic : List EndpointTraffic
  endpoint_states : List Nat
  endpoint_state_index : List Nat

/-- `get_index_range` (`src/capture.rs` lines 181-195): the range starts at
`index.get(id)`; it ends at `index.get(id + 1)` when that entry exists
(`id + 2 <= index.len()`), and at `length` otherwise.  A failing
`index.get` (out of range, an `unwrap` panic in the source) is `none`. -/
def get_index_range (index : List Nat) (length : Nat) (id : Nat) : Option (Nat × Nat) :=
  if index.length < id + 2 then
    match index.get? id with
    | some start => some (start, length)
    | none => none
  else
    match index.get? id, index.get? (id + 1) with
    | some start, some e => some (start, e)
    | _, _ => none

/-- `Item` (`src/capture.rs` lines 20-25). -/
inductive Item : Type where
  | Transfer (transfer_index_id : Nat)
  | Transaction (transfer_index_id : Nat) (transaction_id : Nat)
  | Packet (transfer_index_id : Nat) (transaction_id : Nat) (packet_id : Nat)

/-- `Capture::item_range` (`src/capture.rs` lines 308-328). -/
def Capture.item_range (cap : Capture) (item : Item) : Option (Nat × Nat) :=
  match item with
  | .Transfer transfer_index_id =>
    match cap.transfer_index.get? transfer_index_id with
    | none => none
    | some entry =>
      match cap.endpoint_traffic.get? entry.endpoint_id with
      | none => none
      | some ep_traf =>
        get_index_range ep_traf.transfer_index ep_traf.transaction_ids.length entry.transfer_id
  | .Transaction _ transaction_id =>
    get_index_range cap.transaction_index cap.packet_index.length transaction_id
  | .Packet _ _ packet_id =>
    get_index_range cap.packet_index cap.packet_data.length packet_id

/-- `Capture::child_count` (`src/capture.rs` lines 337-355): 0 for packets,
0 for an end-marker transfer entry, otherwise the length of the item's
child range. -/
def Capture.child_count (cap : Capture) (parent : Item) : Option Nat :=
  match parent with
  | .Transfer id =>
    match cap.transfer_index.get? id with
    | none => none
    | some entry =>
      if entry.is_start then
        match cap.item_range (.Transfer id) with
        | some r => some (r.2 - r.1)
        | none => none
      else
        some 0
  | .Transaction _ _ =>
    match cap.item_range parent with
    | some r => some (r.2 - r.1)
    | none => none
  | .Packet _ _ _ => some 0

/-- `Capture::item_count` (`src/capture.rs` lines 330-335): for `none` the
length of `item_index` (the global number of top-level transfer rows),
otherwise `child_count`. -/
def Capture.item_count (cap : Capture) (parent : Option Item) : Option Nat :=
  match parent with
  | none => some cap.item_index.length
  | some item => cap.child_count item

/-- `FileVec::get_range`: the sub-list `[start, end)`; fails (panics in the
source) when the range does not lie inside the vector. -/
def sliceRange (data : List Nat) (r : Nat × Nat) : Option (List Nat) :=
  if r.1 ≤ r.2 ∧ r.2 ≤ data.length then some ((data.drop r.1).take (r.2 - r.1)) else none

/-- `Capture::get_packet` (`src/capture.rs` lines 552-556): read the byte
range given by `get_index_range` over `packet_index` out of
`packet_data`. -/
def Capture.get_packet (cap : Capture) (index : Nat) : Option (List Nat) :=
  match get_index_range cap.packet_index cap.packet_data.length index with
  | some r => sliceRange cap.packet_data r
  | none => none

/-! ## Endpoint states and the connector column -/

/-- `EndpointState` (`src/capture.rs` lines 75-83). -/
inductive EndpointState : Type where
  | Idle
  | Starting
  | Ongoing
  | Ending
deriving DecidableEq

/-- `EndpointState::from` (the `FromPrimitive` derive with `#[default]` on
`Idle`): bytes 0-3 map to the four states, anything else to `Idle`. -/
def EndpointState.fromByte : Nat → EndpointState
  | 1 => .Starting
  | 2 => .Ongoing
  | 3 => .Ending
  | _ => .Idle

/-- `Capture::get_endpoint_state` (`src/capture.rs` lines 545-550). -/
def Capture.get_endpoint_state (cap : Capture) (index : Nat) : Option (List Nat) :=
  match get_index_range cap.endpoint_state_index cap.endpoint_states.length index with
  | some r => sliceRange cap.endpoint_states r
  | none => none

/-- `Capture::transfer_extended` (`src/capture.rs` lines 528-543). -/
def Capture.transfer_extended (cap : Capture) (endpoint_id : Nat) (index : Nat) : Option Bool :=
  if cap.transfer_index.length ≤ index + 1 then some false
  else
    match cap.get_endpoint_state (index + 1) with
    | none => none
    | some state =>
      if state.length ≤ endpoint_id then some false
      else some (decide (EndpointState.fromByte (state.getD endpoint_id 0) = .Ongoing))

/-- The `thru |= ...` update of `Capture::get_connectors`
(`src/capture.rs` lines 474-478) in the `Transfer` row case: the
`(Transfer(..), Starting | Ending, _) => true` arm. -/
def transfer_thru_step (s : EndpointState) (thru : Bool) : Bool :=
  thru || (match s with
    | .Starting => true
    | .Ending => true
    | _ => false)

/-- The glyph pushed per column for a `Transfer` row
(`src/capture.rs` lines 480-488). -/
def transfer_glyph (s : EndpointState) (thru : Bool) : Char :=
  match s, thru with
  | .Idle, _ => ' '
  | .Starting, _ => '○'
  | .Ongoing, false => '│'
  | .Ongoing, true => '┼'
  | .Ending, _ => '└'

/-- The `for i in 0..state_length` loop of `Capture::get_connectors`
restricted to a `Transfer` row: `thru` is updated from the column's state
before the glyph for that column is pushed. -/
def transfer_columns : List EndpointState → Bool → List Char
  | [], _ => []
  | s :: rest, thru =>
    let thru' := transfer_thru_step s thru
    transfer_glyph s thru' :: transfer_columns rest thru'

/-- `Capture::get_connectors` (`src/capture.rs` lines 436-526) for a
`Transfer` item.  For this row kind `last_transaction` and `last_packet`
are `false` without any lookup, but `transfer_extended` and the
`endpoint_traffic[endpoint_id]` indexing are still evaluated (their
failures propagate); `extended` only feeds `last`, which the `Transfer`
glyph table ignores.  After the per-column glyphs come `'─'` padding up
to the endpoint count and the suffix `"─"` (start entry) or `"──□ "`
(end entry). -/
def Capture.get_connectors_transfer (cap : Capture) (transfer_index_id : Nat) :
    Option (List Char) :=
  match cap.transfer_index.get? transfer_index_id with
  | none => none
  | some entry =>
    match cap.get_endpoint_state transfer_index_id with
    | none => none
    | some endpoint_state =>
      match cap.transfer_extended entry.endpoint_id transfer_index_id with
      | none => none
      | some _ =>
        match cap.endpoint_traffic.get? entry.endpoint_id with
        | none => none
        | some _ =>
          let cols := transfer_columns (endpoint_state.map EndpointState.fromByte) false
          let pad := List.replicate (cap.endpoints.length - endpoint_state.length) '─'
          let suffix := if entry.is_start then ['─'] else ['─', '─', '□', ' ']
          some (cols ++ pad ++ suffix)

/-! ## PID decoding and transactions

`src/usb.rs` is not among the sources, so the PID type is modelled from
the specification. -/

/-- Modelled from the spec: the `PID` enum of the missing `src/usb.rs`.
§4.C: "`PID` (4-bit, 16 variants) — decoded from the first byte of each
packet; the low nibble is the PID, the high nibble its complement"; the
glossary lists SOF, SETUP, IN, OUT, DATA0, DATA1, ACK, NAK, STALL, ….
The 16 variants are the standard USB 2.0 PID codes, one per low-nibble
value. -/
inductive PID : Type where
  | RSVD | OUT | ACK | DATA0 | PING | SOF | NYET | DATA2
  | SPLIT | IN | NAK | DATA1 | ERR | SETUP | STALL | MDATA
deriving DecidableEq

/-- Modelled from the spec: `PID::from(byte)` of the missing `src/usb.rs`,
decoding by the low nibble of the byte (§4.C: "the low nibble is the PID",
high-nibble mismatch is not rejected). -/
def PID.ofByte (b : Nat) : PID :=
  match b % 16 with
  | 0 => .RSVD
  | 1 => .OUT
  | 2 => .ACK
  | 3 => .DATA0
  | 4 => .PING
  | 5 => .SOF
  | 6 => .NYET
  | 7 => .DATA2
  | 8 => .SPLIT
  | 9 => .IN
  | 10 => .NAK
  | 11 => .DATA1
  | 12 => .ERR
  | 13 => .SETUP
  | 14 => .STALL
  | _ => .MDATA

/-- Modelled from the spec: the `Display` rendering of a `PID` used by
`format!("{} transaction, ...")` — the variant's name. -/
def PID.name : PID → String
  | .RSVD => "RSVD"
  | .OUT => "OUT"
  | .ACK => "ACK"
  | .DATA0 => "DATA0"
  | .PING => "PING"
  | .SOF => "SOF"
  | .NYET => "NYET"
  | .DATA2 => "DATA2"
  | .SPLIT => "SPLIT"
  | .IN => "IN"
  | .NAK => "NAK"
  | .DATA1 => "DATA1"
  | .ERR => "ERR"
  | .SETUP => "SETUP"
  | .STALL => "STALL"
  | .MDATA => "MDATA"

/-- `Transaction` (`src/capture.rs` lines 162-166); ranges are `(start, end)`
pairs. -/
structure Transaction : Type where
  pid : PID
  packet_id_range : Nat × Nat
  payload_byte_range : Option (Nat × Nat)

/-- `Transaction::packet_count` (`src/capture.rs` lines 169-171). -/
def Transaction.packet_count (t : Transaction) : Nat :=
  t.packet_id_range.2 - t.packet_id_range.1

/-- `Transaction::payload_size` (`src/capture.rs` lines 173-178). -/
def Transaction.payload_size (t : Transaction) : Option Nat :=
  match t.payload_byte_range with
  | some r => some (r.2 - r.1)
  | none => none

/-- `Capture::get_packet_pid` (`src/capture.rs` lines 558-561). -/
def Capture.get_packet_pid (cap : Capture) (index : Nat) : Option PID :=
  match cap.packet_index.get? index with
  | none => none
  | some offset =>
    match cap.packet_data.get? offset with
    | none => none
    | some b => some (PID.ofByte b)

/-- The `payload_byte_range` computation inside `Capture::get_transaction`
(`src/capture.rs` lines 569-584, the `match pid` with the
`IN | OUT if packet_count >= 2` guard): for an `IN`/`OUT` transaction of
at least 2 packets whose second packet is `DATA0`/`DATA1`, the payload
byte range strips that packet's PID byte and the two trailing CRC bytes;
any other shape has no payload.  The outer `some` is the absence of a
panic in the inner index reads. -/
def transaction_payload (cap : Capture) (pid : PID) (pr : Nat × Nat) :
    Option (Option (Nat × Nat)) :=
  match pid with
  | .IN | .OUT =>
    if 2 ≤ pr.2 - pr.1 then
      match get_index_range cap.packet_index cap.packet_data.length (pr.1 + 1) with
      | none => none
      | some br =>
        match cap.packet_data.get? br.1 with
        | none => none
        | some b =>
          match PID.ofByte b with
          | .DATA0 => some (some (br.1 + 1, br.2 - 2))
          | .DATA1 => some (some (br.1 + 1, br.2 - 2))
          | _ => some none
    else some none
  | _ => some none

/-- `Capture::get_transaction` (`src/capture.rs` lines 563-590): the packet
id range comes from `transaction_index` (bounded by `packet_index.len()`),
the transaction PID is the first packet's, and the payload byte range is
`transaction_payload`. -/
def Capture.get_transaction (cap : Capture) (index : Nat) : Option Transaction :=
  match get_index_range cap.transaction_index cap.packet_index.length index with
  | none => none
  | some pr =>
    match cap.get_packet_pid pr.1 with
    | none => none
    | some pid =>
      match transaction_payload cap pid pr with
      | none => none
      | some payload_byte_range => some ⟨pid, pr, payload_byte_range⟩

/-- The `Transaction` arm of `Capture::get_summary`
(`src/capture.rs` lines 383-395). -/
def Capture.get_summary_transaction (cap : Capture) (transaction_id : Nat) : Option String :=
  match cap.get_transaction transaction_id with
  | none => none
  | some transaction =>
    let count := transaction.packet_count
    match transaction.pid, transaction.payload_size with
    | .SOF, _ => some (toString count ++ " SOF packets")
    | pid, none => some (pid.name ++ " transaction, " ++ toString count ++ " packets")
    | pid, some size =>
      some (pid.name ++ " transaction, " ++ toString count ++ " packets with " ++
        toString size ++ " data bytes")

/-! ## Device item tree (`src/capture.rs` lines 630-673) -/

/-- `DeviceItem` (`src/capture.rs` lines 27-40). -/
inductive DeviceItem : Type where
  | Device (dev : Nat)
  | DeviceDescriptor (dev : Nat)
  | DeviceDescriptorField (dev : Nat) (field : Nat)
  | Configuration (dev : Nat) (conf : Nat)
  | ConfigurationDescriptor (dev : Nat) (conf : Nat)
  | ConfigurationDescriptorField (dev : Nat) (conf : Nat) (field : Nat)
  | Interface (dev : Nat) (conf : Nat) (iface : Nat)
  | InterfaceDescriptor (dev : Nat) (conf : Nat) (iface : Nat)
  | InterfaceDescriptorField (dev : Nat) (conf : Nat) (iface : Nat) (field : Nat)
  | EndpointDescriptor (dev : Nat) (conf : Nat) (iface : Nat) (ep : Nat)
  | EndpointDescriptorField (dev : Nat) (conf : Nat) (iface : Nat) (ep : Nat) (field : Nat)
deriving DecidableEq

/-- `Capture::device_child` (`src/capture.rs` lines 639-666).  An `as u8`
cast truncates (`% 256`); a `(n - 1).try_into().unwrap()` panics (`none`)
above 255; the `_ => panic!("Item does not have children")` arm is
`none`. -/
def device_child (item : DeviceItem) (index : Nat) : Option DeviceItem :=
  match item with
  | .Device dev =>
    match index with
    | 0 => some (.DeviceDescriptor dev)
    | conf => some (.Configuration dev (conf % 256))
  | .DeviceDescriptor dev => some (.DeviceDescriptorField dev (index % 256))
  | .Configuration dev conf =>
    match index with
    | 0 => some (.ConfigurationDescriptor dev conf)
    | n => if n - 1 < 256 then some (.Interface dev conf (n - 1)) else none
  | .ConfigurationDescriptor dev conf =>
    some (.ConfigurationDescriptorField dev conf (index % 256))
  | .Interface dev conf iface =>
    match index with
    | 0 => some (.InterfaceDescriptor dev conf iface)
    | n => if n - 1 < 256 then some (.EndpointDescriptor dev conf iface (n - 1)) else none
  | .InterfaceDescriptor dev conf iface =>
    some (.InterfaceDescriptorField dev conf iface (index % 256))
  | .EndpointDescriptor dev conf iface ep =>
    some (.EndpointDescriptorField dev conf iface ep (index % 256))
  | _ => none

/-- `Capture::get_device_item` (`src/capture.rs` lines 630-637): at the
root (`parent = None`) the `index`-th row is `Device(index + 1)`. -/
def Capture.get_device_item (cap : Capture) (parent : Option DeviceItem) (index : Nat) :
    Option DeviceItem :=
  match parent with
  | none => some (.Device (index + 1))
  | some item => device_child item index

/-- The `None` arm of `Capture::device_item_count`
(`src/capture.rs` lines 668-673): `(self.device_data.len() - 1) as u64`.
The `usize` subtraction underflows (panics) on an empty `device_data`,
modelled as `none`.  The `Some` arm (`device_child_count`) walks
`DeviceData` fields no claim touches and is not embedded. -/
def Capture.device_item_count_root (cap : Capture) : Option Nat :=
  if cap.device_data.length = 0 then none else some (cap.device_data.length - 1)

/-! ## Counts crossing the `u64`→`u32` boundary (`src/tree_list_model.rs`) -/

/-- `u32::try_from` on a `u64` count: succeeds exactly below `2^32`. -/
def u32_try_from (n : Nat) : Option Nat :=
  if n < 2 ^ 32 then some n else none

/-- `ModelError` (`src/tree_list_model.rs` lines 91-99): the only error
variants of the tree model are `CaptureError` (payload omitted here),
`CaptureNotSet` and `LockError` — there is no range/overflow variant. -/
inductive ModelError : Type where
  | CaptureError
  | CaptureNotSet
  | LockError
deriving DecidableEq

/-- Outcome of constructing the tree model: either a root node, or a
process-terminating panic (distinct from returning a typed error). -/
inductive NewOutcome : Type where
  | ok (root : TreeNode)
  | panicked

/-- `TreeListModel::new` (`src/tree_list_model.rs` lines 51-66): the root
is built with
`child_count: u32::try_from(cap.item_count(&None).unwrap()).unwrap()`;
a top-level count above `u32::MAX` makes the inner `try_from` fail and the
outer `unwrap` panic.  No `ModelError` is produced on this path. -/
def TreeListModel.new (top_level_count : Nat) : NewOutcome :=
  match u32_try_from top_level_count with
  | some c => .ok (TreeNode.mk 0 c [])
  | none => .panicked

/-- The node materialisation inside `TreeListModel::item`
(`src/tree_list_model.rs` line 235) converts the capture's child count the
same way: `u32::try_from(cap.child_count(&item).unwrap()).unwrap()`;
`none` is that panic. -/
def materialize_child_count (capture_count : Nat) : Option Nat :=
  u32_try_from capture_count

/-! ## `set_expanded` (`src/tree_list_model.rs` lines 108-171)

A node is designated by the `item_index` path of its parent
(`parentPath`, giving the chain of parent references, all of which the
source `unwrap`s) together with the node's own value.  `BTreeMap`
operations on `children` become ordered-list operations keyed on
`item_index`. -/

/-- `BTreeMap::get(&key)`: the first (under the sorted-key invariant, the
only) child with the given `item_index`. -/
def childWithKey (l : List TreeNode) (key : Nat) : Option TreeNode :=
  l.find? (fun c => c.item_index = key)

/-- `TreeListModel::expanded` (`src/tree_list_model.rs` lines 108-112):
whether the parent's `children` map holds the node's `item_index`. -/
def hasKey (l : List TreeNode) (key : Nat) : Bool :=
  (childWithKey l key).isSome

/-- Walk a path of `item_index` keys down through expanded children. -/
def getNodeAt : TreeNode → List Nat → Option TreeNode
  | t, [] => some t
  | t, k :: ks =>
    match childWithKey t.children k with
    | some c => getNodeAt c ks
    | none => none

/-- `BTreeMap::insert(key, node)` on the key-ordered children list:
insert before the first larger key, replacing an equal key. -/
def insertChild : List TreeNode → TreeNode → List TreeNode
  | [], n => [n]
  | c :: rest, n =>
    if n.item_index < c.item_index then n :: c :: rest
    else if n.item_index = c.item_index then n :: rest
    else c :: insertChild rest n

/-- `BTreeMap::remove(&key)`: drop the first child with the given key. -/
def removeChild : List TreeNode → Nat → List TreeNode
  | [], _ => []
  | c :: rest, key => if c.item_index = key then rest else c :: removeChild rest key

/-- Apply `f` to the first child with the given key. -/
def mapChild : List TreeNode → Nat → (TreeNode → TreeNode) → List TreeNode
  | [], _, _ => []
  | c :: rest, key, f =>
    if c.item_index = key then f c :: rest else c :: mapChild rest key f

/-- `TreeNode::relative_position` (`src/tree_list_model.rs` lines 31-43)
of the child with `item_index = key` below `parent`: the `child_count`s of
the expanded children before it (`take_while` over the ascending key
order), plus `key`. -/
def relative_position (parent : TreeNode) (key : Nat) : Nat :=
  (((parent.children.takeWhile (fun c => c.item_index < key)).map
    TreeNode.child_count).sum) + key

/-- The absolute position, in the flattened visible list, of the child at
`item_index = key` below the node reached by `parentPath`: the source
accumulates it bottom-up in `set_expanded` as
`position += current_node.relative_position() + 1` per ancestor (the final
root step contributing `+ 1`, written here as the `+ 1` on the cons case);
top-down the same sum is `relative_position` of each path step plus one,
plus the node's own `relative_position`.  `expandSim_eq` and
`collapseSim_eq` below prove this equal to a simulation of the source's
exact interleaving of mutation and position reads. -/
def absPosition : TreeNode → List Nat → Nat → Option Nat
  | t, [], key => some (relative_position t key)
  | t, k :: ks, key =>
    match childWithKey t.children k with
    | some c =>
      match absPosition c ks key with
      | some p => some (relative_position t k + 1 + p)
      | none => none
    | none => none

/-- The upward `child_count += count` walk of the expansion branch of
`set_expanded` (`src/tree_list_model.rs` lines 117-142) together with the
`children.insert` at the parent: every node along `parentPath` (root and
parent included) gains `n.child_count`, and `n` is inserted into the
parent's children. -/
def bumpInsert : TreeNode → List Nat → TreeNode → TreeNode
  | .mk ii cc ch, [], n => .mk ii (cc + n.child_count) (insertChild ch n)
  | .mk ii cc ch, k :: ks, n =>
    .mk ii (cc + n.child_count) (mapChild ch k (fun c => bumpInsert c ks n))

/-- The downward image of the collapse branch of `set_expanded`
(`src/tree_list_model.rs` lines 143-169): every node along `parentPath`
loses `count`, and the child with key `key` is removed from the parent's
children. -/
def bumpRemove : TreeNode → List Nat → Nat → Nat → TreeNode
  | .mk ii cc ch, [], key, count => .mk ii (cc - count) (removeChild ch key)
  | .mk ii cc ch, k :: ks, key, count =>
    .mk ii (cc - count) (mapChild ch k (fun c => bumpRemove c ks key count))

/-- `TreeListModel::set_expanded` (`src/tree_list_model.rs` lines 113-171).
Returns the new root and the list of `items_changed(position, removed,
added)` notifications (at most one).  `none` models a panicking
weak-reference `unwrap` on a dead parent chain.  When the requested flag
equals the current state nothing changes and nothing is emitted; otherwise
the node is inserted into / removed from the parent's children, every
ancestor's `child_count` is adjusted by ±`node.child_count`, and one
notification is emitted at the node's absolute position + 1. -/
def TreeListModel.set_expanded (root : TreeNode) (parentPath : List Nat)
    (node : TreeNode) (flag : Bool) :
    Option (TreeNode × List (Nat × Nat × Nat)) :=
  match getNodeAt root parentPath with
  | none => none
  | some parent =>
    if hasKey parent.children node.item_index = flag then some (root, [])
    else
      match absPosition root parentPath node.item_index with
      | none => none
      | some pos =>
        if flag then
          some (bumpInsert root parentPath node, [(pos + 1, 0, node.child_count)])
        else
          some (bumpRemove root parentPath node.item_index node.child_count,
            [(pos + 1, node.child_count, 0)])

/-- Whether a state is `Starting` or `Ending` (the states that switch the
`thru` flag on for a `Transfer` row). -/
def startOrEnd (s : EndpointState) : Bool :=
  match s with
  | .Starting => true
  | .Ending => true
  | _ => false


/-- The first byte of the second packet of a transaction whose packet id
range starts at `s` (the byte `get_transaction` inspects for
`DATA0`/`DATA1`). -/
def secondPacketFirstByte (cap : Capture) (s : Nat) : Option Nat :=
  match get_index_range cap.packet_index cap.packet_data.length (s + 1) with
  | none => none
  | some br => cap.packet_data.get? br.1


/-! ### Reachable tree states and the child-count invariant (C3)

The capture is read-only for the tree model, so it is abstracted by the
function `cap : List Nat → Nat` giving the number of direct children of
the item at each index path (`cap []` is `item_count(None)`, and
`cap (p ++ [i])` is `child_count` of the `i`-th child of the item at
`p` — the value the source obtains through `get_item`/`child_count`). -/

/-- The `BTreeMap` key invariant: at every node, the expanded children
are strictly ordered by `item_index`. -/
inductive SortedTree : TreeNode → Prop where
  | mk : ∀ (ii cc : Nat) (ch : List TreeNode),
      List.Pairwise (fun a b => a.item_index < b.item_index) ch →
      (∀ c ∈ ch, SortedTree c) →
      SortedTree (TreeNode.mk ii cc ch)

/-- The claim's invariant: every node's `child_count` equals its number of
direct children in the capture plus the sum of `child_count` over its
expanded children, recursively. -/
inductive WF (cap : List Nat → Nat) : List Nat → TreeNode → Prop where
  | mk : ∀ (path : List Nat) (ii cc : Nat) (ch : List TreeNode),
      cc = cap path + ((ch.map TreeNode.child_count).sum) →
      (∀ c ∈ ch, WF cap (path ++ [c.item_index]) c) →
      WF cap path (TreeNode.mk ii cc ch)

/-- The fresh single-use node materialised by `TreeListModel::item`
(`src/tree_list_model.rs` lines 231-237) for offset `off` below the item
at path `pp`: `item_index` is the remaining relative position and
`child_count` comes from the capture. -/
def materializeFresh (cap : List Nat → Nat) (pp : List Nat) (off : Nat) : TreeNode :=
  TreeNode.mk off (cap (pp ++ [off])) []

/-- One UI step: look up the row at `pos` (as `item` does) and toggle its
expansion state with `set_expanded`.  A failing lookup or a panicking
`set_expanded` leaves the tree unchanged. -/
def applyToggle (cap : List Nat → Nat) (root : TreeNode) (pos : Nat) (flag : Bool) :
    TreeNode :=
  if pos < root.child_count then
    match lookupAux [] root pos with
    | Row.expanded pp n =>
      ((TreeListModel.set_expanded root pp n flag).map Prod.fst).getD root
    | Row.fresh pp off =>
      ((TreeListModel.set_expanded root pp (materializeFresh cap pp off)
        flag).map Prod.fst).getD root
  else root

/-- Tree-model states reachable from the initial root (whose `child_count`
is the capture's top-level item count, `TreeListModel::new`) by item
materialisation and `set_expanded` operations. -/
inductive Reachable (cap : List Nat → Nat) : TreeNode → Prop where
  | init : Reachable cap (TreeNode.mk 0 (cap []) [])
  | toggle (root : TreeNode) (pos : Nat) (flag : Bool) :
      Reachable cap root → Reachable cap (applyToggle cap root pos flag)


/-! ### The source's operation order, simulated

`set_expanded` above is stated through `bumpInsert` / `bumpRemove` /
`absPosition`, which read all positions off the *pre-state* tree.  The
source instead mutates while it walks: it reads the node's
`relative_position`, inserts (or removes) the child, then walks upward,
bumping each ancestor's `child_count` *before* reading that ancestor's
`relative_position`.  `expandSim` / `collapseSim` reproduce that exact
interleaving (deepest level first, each level's `relative_position` read
on the already-partially-updated tree), and the theorems
`expandSim_eq` / `collapseSim_eq` prove the interleaved walk computes the
same tree and the same accumulated position: the mutations only ever touch
nodes on the walked path, while `relative_position` only reads earlier
siblings of a path node, which the walk never touches. -/

def expandSim : TreeNode → List Nat → TreeNode → TreeNode × Nat
  | .mk ii cc ch, [], n =>
    (TreeNode.mk ii (cc + n.child_count) (insertChild ch n),
      relative_position (TreeNode.mk ii cc ch) n.item_index)
  | .mk ii cc ch, k :: ks, n =>
    match childWithKey ch k with
    | some c =>
      let r := expandSim c ks n
      (TreeNode.mk ii (cc + n.child_count) (mapChild ch k (fun _ => r.1)),
        r.2 + (relative_position
          (TreeNode.mk ii cc (mapChild ch k (fun _ => r.1))) k + 1))
    | none => (TreeNode.mk ii cc ch, 0)

def collapseSim : TreeNode → List Nat → Nat → Nat → TreeNode × Nat
  | .mk ii cc ch, [], key, count =>
    (TreeNode.mk ii (cc - count) (removeChild ch key),
      relative_position (TreeNode.mk ii cc ch) key)
  | .mk ii cc ch, k :: ks, key, count =>
    match childWithKey ch k with
    | some c =>
      let r := collapseSim c ks key count
      (TreeNode.mk ii (cc - count) (mapChild ch k (fun _ => r.1)),
        r.2 + (relative_position
          (TreeNode.mk ii cc (mapChild ch k (fun _ => r.1))) k + 1))
    | none => (TreeNode.mk ii cc ch, 0)


/-! ## Theorems -/

/-- C8: for every id `i` of an index holding `n` entries, the range read
through `get_index_range` runs from entry `i` to entry `i + 1` when the
latter exists, and to the supplied fallback `length` when `i` is the last
entry; every in-range id yields a range, and `get_packet` reads exactly
the `get_index_range` slice of `packet_data` over `packet_index`. -/
theorem index_range_spec :
    (∀ (idx : List Nat) (L i a b : Nat), idx.get? i = some a →
      idx.get? (i + 1) = some b → get_index_range idx L i = some (a, b)) ∧
    (∀ (idx : List Nat) (L i a : Nat), idx.get? i = some a →
      i + 1 = idx.length → get_index_range idx L i = some (a, L)) ∧
    (∀ (idx : List Nat) (L i : Nat), i < idx.length →
      (get_index_range idx L i).isSome) ∧
    (∀ (cap : Capture) (i : Nat), cap.get_packet i =
      (get_index_range cap.packet_index cap.packet_data.length i).bind
        (sliceRange cap.packet_data)) := by
  refine ⟨?_, ?_, ?_, ?_⟩
  · intro idx L i a b ha hb
    have hi : i + 1 < idx.length := (List.get?_eq_some.mp hb).1
    unfold get_index_range
    rw [if_neg (by omega), ha, hb]
  · intro idx L i a ha hlen
    unfold get_index_range
    rw [if_pos (by omega), ha]
  · intro idx L i hi
    unfold get_index_range
    by_cases hc : idx.length < i + 2
    · rw [if_pos hc]
      obtain ⟨a, ha⟩ : ∃ a, idx.get? i = some a :=
        ⟨idx.get ⟨i, hi⟩, List.get?_eq_get hi⟩
      rw [ha]
      exact rfl
    · rw [if_neg hc]
      have h1 : i + 1 < idx.length := by omega
      obtain ⟨a, ha⟩ : ∃ a, idx.get? i = some a :=
        ⟨idx.get ⟨i, hi⟩, List.get?_eq_get hi⟩
      obtain ⟨b, hb⟩ : ∃ b, idx.get? (i + 1) = some b :=
        ⟨idx.get ⟨i + 1, h1⟩, List.get?_eq_get h1⟩
      rw [ha, hb]
      exact rfl
  · intro cap i
    unfold Capture.get_packet
    cases get_index_range cap.packet_index cap.packet_data.length i <;> rfl

/-- C8 witness: the generic rule evaluated on a three-entry index: an
inner id reads up to the next entry, the last id reads up to the
fallback length. -/
theorem index_range_spec_witness :
    get_index_range [0, 3, 6] 9 0 = some (0, 3) ∧
    get_index_range [0, 3, 6] 9 2 = some (6, 9) := by
  exact ⟨index_range_spec.1 [0, 3, 6] 9 0 0 3 rfl rfl,
    index_range_spec.2.1 [0, 3, 6] 9 2 6 rfl rfl⟩

/-- C10: at the device-tree root, row `index` is `Device(index + 1)` (so
device record 0 is never a top-level row), and the top-level count is
`device_data.len() - 1`, defined only when at least one device record
exists (the subtraction panics on an empty `device_data`). -/
theorem device_root_rows_spec :
    (∀ (cap : Capture) (index : Nat),
      cap.get_device_item none index = some (.Device (index + 1))) ∧
    (∀ (cap : Capture) (index : Nat),
      cap.get_device_item none index ≠ some (.Device 0)) ∧
    (∀ cap : Capture, 1 ≤ cap.device_data.length →
      cap.device_item_count_root = some (cap.device_data.length - 1)) ∧
    (∀ cap : Capture, cap.device_data.length = 0 →
      cap.device_item_count_root = none) := by
  refine ⟨fun cap index => rfl, ?_, ?_, ?_⟩
  · intro cap index h
    rw [Capture.get_device_item] at h
    cases h
  · intro cap h
    unfold Capture.device_item_count_root
    rw [if_neg (by omega)]
  · intro cap h
    unfold Capture.device_item_count_root
    rw [if_pos h]

/-- C10 witness: a capture with two device records exposes one top-level
device row, which denotes device record 1. -/
theorem device_root_rows_spec_witness :
    (Capture.mk [] [] [] [] [] [⟨⟩, ⟨⟩] [] [] [] []).get_device_item none 0 =
      some (.Device 1) ∧
    (Capture.mk [] [] [] [] [] [⟨⟩, ⟨⟩] [] [] [] []).device_item_count_root = some 1 := by
  exact ⟨device_root_rows_spec.1 _ 0,
    device_root_rows_spec.2.2.1 _ (by simp)⟩

/-- C9 counterexample: at the concrete top-level count `2^32` the tree
model's construction panics (`unwrap` on a failed `u32::try_from`): the
process terminates, no typed error is surfaced to the caller, refuting the
claim as stated. -/
theorem count_overflow_panics :
    TreeListModel.new (2 ^ 32) = NewOutcome.panicked := by
  unfold TreeListModel.new u32_try_from
  rw [if_neg (by omega)]

/-- C9 (amended): whenever a count obtained from the capture store exceeds
`u32::MAX`, the tree model's conversion sites (`TreeListModel::new` and
the node materialisation in `item`) panic via `unwrap` — terminating the
process rather than surfacing a typed error (`ModelError` has no range
variant) — and for all smaller counts the conversion succeeds. -/
theorem count_overflow_spec :
    (∀ n : Nat, n < 2 ^ 32 →
      TreeListModel.new n = .ok (TreeNode.mk 0 n []) ∧
      materialize_child_count n = some n) ∧
    (∀ n : Nat, 2 ^ 32 ≤ n →
      TreeListModel.new n = .panicked ∧
      materialize_child_count n = none) := by
  constructor
  · intro n h
    unfold TreeListModel.new materialize_child_count u32_try_from
    rw [if_pos h]
    exact ⟨rfl, rfl⟩
  · intro n h
    unfold TreeListModel.new materialize_child_count u32_try_from
    rw [if_neg (by omega)]
    exact ⟨rfl, rfl⟩

/-- C9 witness: the amended rule at counts `7` and `2^32`. -/
theorem count_overflow_spec_witness :
    TreeListModel.new 7 = .ok (TreeNode.mk 0 7 []) ∧
    materialize_child_count (2 ^ 32) = none := by
  exact ⟨(count_overflow_spec.1 7 (by norm_num)).1,
    (count_overflow_spec.2 (2 ^ 32) (le_refl _)).2⟩

/-- C4: `item_count(None)` is the number of top-level transfer rows (the
length of `item_index`); a `Packet` has 0 children; an end-marker
`Transfer` entry has 0 children; a start `Transfer` entry's child count is
the length of the range read from its endpoint's `transfer_index`; a
`Transaction`'s child count is the length of the range read from
`transaction_index`. -/
theorem item_count_spec :
    (∀ cap : Capture, cap.item_count none = some cap.item_index.length) ∧
    (∀ (cap : Capture) (t tr p : Nat),
      cap.child_count (.Packet t tr p) = some 0) ∧
    (∀ (cap : Capture) (id : Nat) (entry : TransferIndexEntry),
      cap.transfer_index.get? id = some entry → entry.is_start = false →
      cap.child_count (.Transfer id) = some 0) ∧
    (∀ (cap : Capture) (id : Nat) (entry : TransferIndexEntry)
      (ep_traf : EndpointTraffic),
      cap.transfer_index.get? id = some entry → entry.is_start = true →
      cap.endpoint_traffic.get? entry.endpoint_id = some ep_traf →
      cap.child_count (.Transfer id) =
        (get_index_range ep_traf.transfer_index ep_traf.transaction_ids.length
          entry.transfer_id).map (fun r => r.2 - r.1)) ∧
    (∀ (cap : Capture) (t tid : Nat),
      cap.child_count (.Transaction t tid) =
        (get_index_range cap.transaction_index cap.packet_index.length tid).map
          (fun r => r.2 - r.1)) := by
  refine ⟨fun cap => rfl, fun cap t tr p => rfl, ?_, ?_, ?_⟩
  · intro cap id entry he hs
    simp only [Capture.child_count, he, hs]
    rfl
  · intro cap id entry ep_traf he hs ht
    simp only [Capture.child_count, Capture.item_range, he, hs, ht, if_true]
    cases get_index_range ep_traf.transfer_index ep_traf.transaction_ids.length
      entry.transfer_id <;> rfl
  · intro cap t tid
    simp only [Capture.child_count, Capture.item_range]
    cases get_index_range cap.transaction_index cap.packet_index.length tid <;> rfl

/-- C4 witness: a two-row capture: the start `Transfer` entry has 2
children (its transfer spans offsets 0..2 of the endpoint's transaction
list), the end-marker entry has 0, a `Transaction` spanning packets 0..2
has 2 children, and a `Packet` has none. -/
theorem item_count_spec_witness :
    (Capture.mk [0, 1] [0, 3] [0, 1, 2, 3, 4, 5] [0] [⟨0, 0, true⟩, ⟨0, 0, false⟩]
      [⟨⟩] [] [⟨[0, 1], [0, 2]⟩] [] []).item_count none = some 2 ∧
    (Capture.mk [0, 1] [0, 3] [0, 1, 2, 3, 4, 5] [0] [⟨0, 0, true⟩, ⟨0, 0, false⟩]
      [⟨⟩] [] [⟨[0, 1], [0, 2]⟩] [] []).child_count (.Transfer 0) = some 2 ∧
    (Capture.mk [0, 1] [0, 3] [0, 1, 2, 3, 4, 5] [0] [⟨0, 0, true⟩, ⟨0, 0, false⟩]
      [⟨⟩] [] [⟨[0, 1], [0, 2]⟩] [] []).child_count (.Transfer 1) = some 0 ∧
    (Capture.mk [0, 1] [0, 3] [0, 1, 2, 3, 4, 5] [0] [⟨0, 0, true⟩, ⟨0, 0, false⟩]
      [⟨⟩] [] [⟨[0, 1], [0, 2]⟩] [] []).child_count (.Transaction 0 0) = some 2 ∧
    (Capture.mk [0, 1] [0, 3] [0, 1, 2, 3, 4, 5] [0] [⟨0, 0, true⟩, ⟨0, 0, false⟩]
      [⟨⟩] [] [⟨[0, 1], [0, 2]⟩] [] []).child_count (.Packet 0 0 0) = some 0 := by
  refine ⟨item_count_spec.1 _, ?_, ?_, ?_, item_count_spec.2.1 _ 0 0 0⟩
  · exact item_count_spec.2.2.2.1 _ 0 ⟨0, 0, true⟩ ⟨[0, 1], [0, 2]⟩ rfl rfl rfl
  · exact item_count_spec.2.2.1 _ 1 ⟨0, 0, false⟩ rfl rfl
  · exact item_count_spec.2.2.2.2 _ 0 0

/-- C1: the tree model's item lookup returns a row exactly for positions
below `n_items()`; the row is found by top-down descent maintaining a
running relative position over the expanded children in `item_index`
order: a relative position before the next expanded child's `item_index`
falls through to a fresh direct child of the current parent at that
offset (likewise when the children are exhausted), an exact hit on
`item_index` returns the expanded child, a position within the subtree
range `item_index .. item_index + child_count` descends into the child
subtracting `item_index + 1`, and any later position subtracts the
child's `child_count` and continues. -/
theorem tree_item_lookup_spec :
    (∀ (root : TreeNode) (pos : Nat),
      (TreeListModel.item root pos).isSome ↔ pos < TreeListModel.n_items root) ∧
    (∀ rel, descendStep [] rel = .fresh rel) ∧
    (∀ (c : TreeNode) (cs : List TreeNode) (rel : Nat), rel < c.item_index →
      descendStep (c :: cs) rel = .fresh rel) ∧
    (∀ (c : TreeNode) (cs : List TreeNode) (rel : Nat), rel = c.item_index →
      descendStep (c :: cs) rel = .found c) ∧
    (∀ (c : TreeNode) (cs : List TreeNode) (rel : Nat),
      c.item_index < rel → rel ≤ c.item_index + c.child_count →
      descendStep (c :: cs) rel = .descend c (rel - (c.item_index + 1))) ∧
    (∀ (c : TreeNode) (cs : List TreeNode) (rel : Nat),
      c.item_index + c.child_count < rel →
      descendStep (c :: cs) rel = descendStep cs (rel - c.child_count)) ∧
    (∀ (acc : List Nat) (p : TreeNode) (rel off : Nat),
      descendStep p.children rel = .fresh off →
      lookupAux acc p rel = Row.fresh acc off) ∧
    (∀ (acc : List Nat) (p : TreeNode) (rel : Nat) (c : TreeNode),
      descendStep p.children rel = .found c →
      lookupAux acc p rel = Row.expanded acc c) ∧
    (∀ (acc : List Nat) (p : TreeNode) (rel : Nat) (c : TreeNode) (r : Nat),
      descendStep p.children rel = .descend c r →
      lookupAux acc p rel = lookupAux (acc ++ [c.item_index]) c r) := by
  refine ⟨?_, fun rel => rfl, ?_, ?_, ?_, ?_, ?_, ?_, ?_⟩
  · intro root pos
    unfold TreeListModel.item TreeListModel.n_items
    by_cases h : pos < root.child_count
    · rw [if_pos h]; simpa using h
    · rw [if_neg h]; simpa using h
  · intro c cs rel h
    simp only [descendStep]
    rw [if_pos h]
  · intro c cs rel h
    simp only [descendStep]
    rw [if_neg (by omega), if_pos h]
  · intro c cs rel h1 h2
    simp only [descendStep]
    rw [if_neg (by omega), if_neg (by omega), if_pos h2]
  · intro c cs rel h
    simp only [descendStep]
    rw [if_neg (by omega), if_neg (by omega), if_neg (by omega)]
  · intro acc p rel off hd
    rw [lookupAux]
    split
    · rename_i heq; rw [hd] at heq; cases heq; rfl
    · rename_i heq; rw [hd] at heq; cases heq
    · rename_i heq; rw [hd] at heq; cases heq
  · intro acc p rel c hd
    rw [lookupAux]
    split
    · rename_i heq; rw [hd] at heq; cases heq
    · rename_i heq; rw [hd] at heq; cases heq; rfl
    · rename_i heq; rw [hd] at heq; cases heq
  · intro acc p rel c r hd
    rw [lookupAux]
    split
    · rename_i heq; rw [hd] at heq; cases heq
    · rename_i heq; rw [hd] at heq; cases heq
    · rename_i heq; rw [hd] at heq; cases heq; rfl

/-- C1 witness: the descent rules evaluated around a single expanded child
with `item_index = 2` and `child_count = 3` below a root of five visible
rows: position 4 descends into the child at relative position 1, position
2 hits the child itself, position 1 is a fresh direct child, position 6
skips past the child's subtree, and the lookup of position 0 under the
root returns a fresh row. -/
theorem tree_item_lookup_spec_witness :
    descendStep [TreeNode.mk 2 3 []] 1 = .fresh 1 ∧
    descendStep [TreeNode.mk 2 3 []] 2 = .found (TreeNode.mk 2 3 []) ∧
    descendStep [TreeNode.mk 2 3 []] 4 = .descend (TreeNode.mk 2 3 []) 1 ∧
    descendStep [TreeNode.mk 2 3 []] 6 = descendStep [] 3 ∧
    lookupAux [] (TreeNode.mk 0 5 [TreeNode.mk 2 3 []]) 4 =
      lookupAux [2] (TreeNode.mk 2 3 []) 1 ∧
    lookupAux [2] (TreeNode.mk 2 3 []) 1 = Row.fresh [2] 1 ∧
    (TreeListModel.item (TreeNode.mk 0 5 [TreeNode.mk 2 3 []]) 4).isSome := by
  refine ⟨tree_item_lookup_spec.2.2.1 _ [] 1 (by decide),
    tree_item_lookup_spec.2.2.2.1 _ [] 2 (by decide),
    tree_item_lookup_spec.2.2.2.2.1 _ [] 4 (by decide) (by decide),
    tree_item_lookup_spec.2.2.2.2.2.1 _ [] 6 (by decide),
    tree_item_lookup_spec.2.2.2.2.2.2.2.2 [] (TreeNode.mk 0 5 [TreeNode.mk 2 3 []]) 4
      (TreeNode.mk 2 3 []) 1 rfl,
    tree_item_lookup_spec.2.2.2.2.2.2.1 [2] (TreeNode.mk 2 3 []) 1 1 rfl,
    (tree_item_lookup_spec.1 _ 4).mpr (by decide)⟩

theorem transfer_thru_step_eq (s : EndpointState) (th : Bool) :
    transfer_thru_step s th = (th || startOrEnd s) := rfl

theorem transfer_columns_length (l : List EndpointState) (th : Bool) :
    (transfer_columns l th).length = l.length := by
  induction l generalizing th with
  | nil => rfl
  | cons s rest ih => simp [transfer_columns, ih]

theorem transfer_columns_get? (l : List EndpointState) (th : Bool) (i : Nat)
    (hi : i < l.length) :
    (transfer_columns l th).get? i =
      some (transfer_glyph (l.getD i .Idle) (th || (l.take (i + 1)).any startOrEnd)) := by
  induction l generalizing th i with
  | nil => cases hi
  | cons s rest ih =>
    cases i with
    | zero =>
      simp [transfer_columns, transfer_thru_step_eq, List.getD]
    | succ j =>
      have hj : j < rest.length := by simpa using hi
      calc (transfer_columns (s :: rest) th).get? (j + 1)
          = (transfer_columns rest (transfer_thru_step s th)).get? j := rfl
        _ = some (transfer_glyph (rest.getD j .Idle)
              (transfer_thru_step s th || (rest.take (j + 1)).any startOrEnd)) := ih _ _ hj
        _ = some (transfer_glyph (((s :: rest)).getD (j + 1) .Idle)
              (th || ((s :: rest).take (j + 1 + 1)).any startOrEnd)) := by
            simp [transfer_thru_step_eq, List.getD, Bool.or_assoc]

/-- C6: for a `Transfer` row, the connector string starts with one glyph
per column of the row's endpoint-state snapshot, scanned in endpoint-id
order with a running `thru` flag that is true at column `i` exactly when
some column at or before `i` has state `Starting` or `Ending`: an `Idle`
column yields `' '`, `Starting` yields `'○'`, `Ongoing` yields `'│'`
without `thru` and `'┼'` with it, and `Ending` yields `'└'`. -/
theorem transfer_connectors_spec :
    ∀ (cap : Capture) (id : Nat) (snap : List Nat) (g : List Char),
      cap.get_endpoint_state id = some snap →
      cap.get_connectors_transfer id = some g →
      ∀ i, i < snap.length →
        ((snap.map EndpointState.fromByte).getD i .Idle = .Idle →
          g.get? i = some ' ') ∧
        ((snap.map EndpointState.fromByte).getD i .Idle = .Starting →
          g.get? i = some '○') ∧
        ((snap.map EndpointState.fromByte).getD i .Idle = .Ongoing →
          ((snap.map EndpointState.fromByte).take (i + 1)).any startOrEnd = false →
          g.get? i = some '│') ∧
        ((snap.map EndpointState.fromByte).getD i .Idle = .Ongoing →
          ((snap.map EndpointState.fromByte).take (i + 1)).any startOrEnd = true →
          g.get? i = some '┼') ∧
        ((snap.map EndpointState.fromByte).getD i .Idle = .Ending →
          g.get? i = some '└') := by
  intro cap id snap g hsnap hg i hi
  have hmap : i < (snap.map EndpointState.fromByte).length := by simpa using hi
  obtain ⟨rest, hrest⟩ :
      ∃ rest, g = transfer_columns (snap.map EndpointState.fromByte) false ++ rest := by
    unfold Capture.get_connectors_transfer at hg
    split at hg
    · cases hg
    · split at hg
      · cases hg
      · rename_i es hes
        rw [hsnap] at hes
        injection hes with hes
        subst hes
        split at hg
        · cases hg
        · split at hg
          · cases hg
          · injection hg with hg
            exact ⟨_, by rw [← hg, List.append_assoc]⟩
  have hcore := transfer_columns_get? (snap.map EndpointState.fromByte) false i hmap
  have hlen : i < (transfer_columns (snap.map EndpointState.fromByte) false).length := by
    rw [transfer_columns_length]; exact hmap
  have hgi : g.get? i =
      some (transfer_glyph ((snap.map EndpointState.fromByte).getD i .Idle)
        (((snap.map EndpointState.fromByte).take (i + 1)).any startOrEnd)) := by
    rw [hrest, List.get?_append hlen, hcore, Bool.false_or]
  refine ⟨?_, ?_, ?_, ?_, ?_⟩ <;> intro hs
  · rw [hgi, hs]; rfl
  · rw [hgi, hs]; rfl
  · intro ht; rw [hgi, hs, ht]; rfl
  · intro ht; rw [hgi, hs, ht]; rfl
  · rw [hgi, hs]
    cases h : ((snap.map EndpointState.fromByte).take (i + 1)).any startOrEnd <;> rfl

/-- C6 witness: a start-entry transfer row over the snapshot
`[Starting, Ongoing, Idle, Ending]`: the `Ongoing` column renders `'┼'`
(a `Starting` column precedes it) and the `Idle` column renders `' '`. -/
theorem transfer_connectors_spec_witness :
    ((Capture.mk [] [] [] [] [⟨0, 0, true⟩] [] [] [⟨[], []⟩] [1, 2, 0, 3]
        [0]).get_connectors_transfer 0 = some ['○', '┼', ' ', '└', '─']) ∧
    (['○', '┼', ' ', '└', '─'] : List Char).get? 1 = some '┼' ∧
    (['○', '┼', ' ', '└', '─'] : List Char).get? 2 = some ' ' := by
  refine ⟨rfl, ?_, ?_⟩
  · exact (transfer_connectors_spec
      (Capture.mk [] [] [] [] [⟨0, 0, true⟩] [] [] [⟨[], []⟩] [1, 2, 0, 3] [0]) 0
      [1, 2, 0, 3] ['○', '┼', ' ', '└', '─'] rfl rfl 1 (by decide)).2.2.2.1
      (by decide) (by decide)
  · exact (transfer_connectors_spec
      (Capture.mk [] [] [] [] [⟨0, 0, true⟩] [] [] [⟨[], []⟩] [1, 2, 0, 3] [0]) 0
      [1, 2, 0, 3] ['○', '┼', ' ', '└', '─'] rfl rfl 2 (by decide)).1
      (by decide)

theorem transaction_payload_not_io (cap : Capture) (pid : PID) (pr : Nat × Nat)
    (h1 : pid ≠ PID.IN) (h2 : pid ≠ PID.OUT) :
    transaction_payload cap pid pr = some none := by
  cases pid <;> first
    | rfl
    | exact absurd rfl h1
    | exact absurd rfl h2

theorem transaction_payload_short (cap : Capture) (pid : PID) (pr : Nat × Nat)
    (h : ¬ 2 ≤ pr.2 - pr.1) :
    transaction_payload cap pid pr = some none := by
  cases pid <;> first
    | rfl
    | (unfold transaction_payload; rw [if_neg h])

theorem transaction_payload_body_elim {cap : Capture} {pr : Nat × Nat}
    {p : Option (Nat × Nat)} (hc : 2 ≤ pr.2 - pr.1)
    (h : (if 2 ≤ pr.2 - pr.1 then
        match get_index_range cap.packet_index cap.packet_data.length (pr.1 + 1) with
        | none => none
        | some br =>
          match cap.packet_data.get? br.1 with
          | none => none
          | some b =>
            match PID.ofByte b with
            | .DATA0 => some (some (br.1 + 1, br.2 - 2))
            | .DATA1 => some (some (br.1 + 1, br.2 - 2))
            | _ => some none
      else some none) = some p) :
    ∃ br b, get_index_range cap.packet_index cap.packet_data.length (pr.1 + 1) = some br ∧
      cap.packet_data.get? br.1 = some b ∧
      p = (match PID.ofByte b with
        | .DATA0 => some (br.1 + 1, br.2 - 2)
        | .DATA1 => some (br.1 + 1, br.2 - 2)
        | _ => none) := by
  rw [if_pos hc] at h
  split at h
  · cases h
  · rename_i br hbr
    split at h
    · cases h
    · rename_i b hb
      refine ⟨br, b, hbr, hb, ?_⟩
      cases hpb : PID.ofByte b <;> rw [hpb] at h <;> (injection h with h; exact h.symm)

theorem transaction_payload_io_elim {cap : Capture} {pid : PID} {pr : Nat × Nat}
    {p : Option (Nat × Nat)}
    (hio : pid = PID.IN ∨ pid = PID.OUT) (hc : 2 ≤ pr.2 - pr.1)
    (h : transaction_payload cap pid pr = some p) :
    ∃ br b, get_index_range cap.packet_index cap.packet_data.length (pr.1 + 1) = some br ∧
      cap.packet_data.get? br.1 = some b ∧
      p = (match PID.ofByte b with
        | .DATA0 => some (br.1 + 1, br.2 - 2)
        | .DATA1 => some (br.1 + 1, br.2 - 2)
        | _ => none) := by
  rcases hio with h' | h'
  · subst h'
    exact transaction_payload_body_elim hc h
  · subst h'
    exact transaction_payload_body_elim hc h

theorem get_transaction_elim {cap : Capture} {tid : Nat} {pid : PID}
    {pr : Nat × Nat} {payload : Option (Nat × Nat)}
    (ht : cap.get_transaction tid = some ⟨pid, pr, payload⟩) :
    get_index_range cap.transaction_index cap.packet_index.length tid = some pr ∧
    cap.get_packet_pid pr.1 = some pid ∧
    ((pid = .IN ∨ pid = .OUT) → 2 ≤ pr.2 - pr.1 →
      ∃ br b, get_index_range cap.packet_index cap.packet_data.length
          (pr.1 + 1) = some br ∧
        cap.packet_data.get? br.1 = some b ∧
        payload =
          (match PID.ofByte b with
            | .DATA0 => some (br.1 + 1, br.2 - 2)
            | .DATA1 => some (br.1 + 1, br.2 - 2)
            | _ => none)) ∧
    (¬ ((pid = .IN ∨ pid = .OUT) ∧ 2 ≤ pr.2 - pr.1) →
      payload = none) := by
  unfold Capture.get_transaction at ht
  split at ht
  · cases ht
  · rename_i pr0 hpr
    split at ht
    · cases ht
    · rename_i pid0 hpid
      split at ht
      · cases ht
      · rename_i payload0 hpayload
        injection ht with ht
        rw [Transaction.mk.injEq] at ht
        obtain ⟨h1, h2, h3⟩ := ht
        subst h1; subst h2; subst h3
        refine ⟨hpr, hpid, ?_, ?_⟩
        · intro hio hcount
          exact transaction_payload_io_elim hio hcount hpayload
        · intro hneg
          by_cases hio : pid0 = PID.IN ∨ pid0 = PID.OUT
          · have hcount : ¬ 2 ≤ pr0.2 - pr0.1 := fun hc => hneg ⟨hio, hc⟩
            rw [transaction_payload_short cap pid0 pr0 hcount] at hpayload
            injection hpayload with hpayload
            exact hpayload.symm
          · have h1 : pid0 ≠ PID.IN := fun h => hio (Or.inl h)
            have h2 : pid0 ≠ PID.OUT := fun h => hio (Or.inr h)
            rw [transaction_payload_not_io cap pid0 pr0 h1 h2] at hpayload
            injection hpayload with hpayload
            exact hpayload.symm

theorem secondPacketFirstByte_eq {cap : Capture} {s : Nat} {br : Nat × Nat} {b : Nat}
    (hbr : get_index_range cap.packet_index cap.packet_data.length (s + 1) = some br)
    (hb : cap.packet_data.get? br.1 = some b) :
    secondPacketFirstByte cap s = some b := by
  unfold secondPacketFirstByte
  rw [hbr]
  exact hb

/-- C7: for a `Transaction` item, the summary is `"<N> SOF packets"` when
the transaction's PID (that of its first packet) is `SOF`, and otherwise
`"<PID> transaction, <N> packets"` with the suffix
`" with <M> data bytes"` present exactly when the transaction has a
payload — the PID is `IN` or `OUT`, there are at least two packets, and
the second packet's PID byte decodes to `DATA0` or `DATA1` — where `N` is
the packet count and `M` the payload size, which equals the data packet's
byte length minus its PID byte and two CRC bytes. -/
theorem transaction_summary_spec :
    ∀ (cap : Capture) (tid : Nat) (t : Transaction),
      cap.get_transaction tid = some t →
      (t.pid = .SOF → cap.get_summary_transaction tid =
        some (toString t.packet_count ++ " SOF packets")) ∧
      (t.pid ≠ .SOF → t.payload_byte_range = none →
        cap.get_summary_transaction tid =
          some (t.pid.name ++ " transaction, " ++ toString t.packet_count ++ " packets")) ∧
      (∀ ps pe, t.pid ≠ .SOF → t.payload_byte_range = some (ps, pe) →
        cap.get_summary_transaction tid =
          some (t.pid.name ++ " transaction, " ++ toString t.packet_count ++
            " packets with " ++ toString (pe - ps) ++ " data bytes")) ∧
      (t.payload_byte_range.isSome ↔
        ((t.pid = .IN ∨ t.pid = .OUT) ∧ 2 ≤ t.packet_count ∧
          ∃ b, secondPacketFirstByte cap t.packet_id_range.1 = some b ∧
            (PID.ofByte b = .DATA0 ∨ PID.ofByte b = .DATA1))) ∧
      (∀ ps pe bs be, t.payload_byte_range = some (ps, pe) →
        get_index_range cap.packet_index cap.packet_data.length
          (t.packet_id_range.1 + 1) = some (bs, be) →
        ps = bs + 1 ∧ pe = be - 2 ∧ (bs + 3 ≤ be → pe - ps = (be - bs) - 3)) := by
  intro cap tid t ht
  obtain ⟨pid, pr, payload⟩ := t
  obtain ⟨hpr, hpid, hio_elim, hnone_elim⟩ := get_transaction_elim ht
  refine ⟨?_, ?_, ?_, ?_, ?_⟩
  · intro hs
    replace hs : pid = PID.SOF := hs
    cases hs
    unfold Capture.get_summary_transaction
    rw [ht]
    cases payload <;> rfl
  · intro hs hnone
    replace hs : pid ≠ PID.SOF := hs
    replace hnone : payload = none := hnone
    cases hnone
    unfold Capture.get_summary_transaction
    rw [ht]
    cases pid <;> first
      | exact absurd rfl hs
      | rfl
  · intro ps pe hs hsome
    replace hs : pid ≠ PID.SOF := hs
    replace hsome : payload = some (ps, pe) := hsome
    cases hsome
    unfold Capture.get_summary_transaction
    rw [ht]
    cases pid <;> first
      | exact absurd rfl hs
      | rfl
  · show payload.isSome ↔ _
    constructor
    · intro hsome
      by_cases hcond : (pid = PID.IN ∨ pid = PID.OUT) ∧ 2 ≤ pr.2 - pr.1
      · obtain ⟨br, b, hbr, hb, hpay⟩ := hio_elim hcond.1 hcond.2
        refine ⟨hcond.1, hcond.2, b, secondPacketFirstByte_eq hbr hb, ?_⟩
        rw [hpay] at hsome
        cases hpb : PID.ofByte b <;> rw [hpb] at hsome <;>
          first
            | exact Or.inl rfl
            | exact Or.inr rfl
            | cases hsome
      · rw [hnone_elim hcond] at hsome
        cases hsome
    · rintro ⟨hio, hc, b, hsec, hdata⟩
      replace hio : pid = PID.IN ∨ pid = PID.OUT := hio
      replace hc : 2 ≤ pr.2 - pr.1 := hc
      obtain ⟨br, b', hbr, hb, hpay⟩ := hio_elim hio hc
      have hb' : b' = b := by
        have hs2 := secondPacketFirstByte_eq hbr hb
        replace hsec : secondPacketFirstByte cap pr.1 = some b := hsec
        rw [hs2] at hsec
        exact Option.some_inj.mp hsec
      subst hb'
      rw [hpay]
      rcases hdata with hd | hd <;> rw [hd] <;> rfl
  · intro ps pe bs be hsome hbs
    replace hsome : payload = some (ps, pe) := hsome
    replace hbs : get_index_range cap.packet_index cap.packet_data.length
      (pr.1 + 1) = some (bs, be) := hbs
    have hcond : (pid = PID.IN ∨ pid = PID.OUT) ∧ 2 ≤ pr.2 - pr.1 := by
      by_contra hcond
      rw [hnone_elim hcond] at hsome
      cases hsome
    obtain ⟨br, b, hbr2, hb, hpay⟩ := hio_elim hcond.1 hcond.2
    have hbrbs : br = (bs, be) := by
      rw [hbr2] at hbs
      exact Option.some_inj.mp hbs
    rw [hsome] at hpay
    obtain ⟨hps, hpe⟩ : ps = bs + 1 ∧ pe = be - 2 := by
      cases hpb : PID.ofByte b <;> rw [hpb] at hpay <;>
        first
          | (rw [hbrbs] at hpay; injection hpay with h;
             exact ⟨congrArg Prod.fst h, congrArg Prod.snd h⟩)
          | cases hpay
    exact ⟨hps, hpe, fun hbound => by omega⟩

/-- C7 witness: a concrete `IN` transaction of three packets (token `IN`,
a five-byte `DATA0` packet, `ACK`): its summary carries the payload
suffix, and the payload range strips the PID byte and two CRC bytes of
the data packet (which spans bytes 1..6). -/
theorem transaction_summary_spec_witness :
    (Capture.mk [] [0, 1, 6] [0x69, 0xC3, 1, 2, 0, 0, 0xD2] [0]
        [] [] [] [] [] []).get_summary_transaction 0 =
      some "IN transaction, 3 packets with 2 data bytes" ∧
    (2 = 1 + 1 ∧ 4 = 6 - 2 ∧ (1 + 3 ≤ 6 → 4 - 2 = 6 - 1 - 3)) := by
  refine ⟨?_, ?_⟩
  · exact (transaction_summary_spec
      (Capture.mk [] [0, 1, 6] [0x69, 0xC3, 1, 2, 0, 0, 0xD2] [0] [] [] [] [] [] [])
      0 ⟨PID.IN, (0, 3), some (2, 4)⟩ rfl).2.2.1 2 4 (by decide) rfl
  · exact (transaction_summary_spec
      (Capture.mk [] [0, 1, 6] [0x69, 0xC3, 1, 2, 0, 0, 0xD2] [0] [] [] [] [] [] [])
      0 ⟨PID.IN, (0, 3), some (2, 4)⟩ rfl).2.2.2.2 2 4 1 6 rfl rfl

/-! ### Helper lemmas about the tree operations -/

theorem bumpInsert_item_index (t : TreeNode) (r : List Nat) (n : TreeNode) :
    (bumpInsert t r n).item_index = t.item_index := by
  cases t with
  | mk ii cc ch => cases r <;> rfl

theorem bumpInsert_child_count (t : TreeNode) (r : List Nat) (n : TreeNode) :
    (bumpInsert t r n).child_count = t.child_count + n.child_count := by
  cases t with
  | mk ii cc ch => cases r <;> rfl

theorem bumpRemove_item_index (t : TreeNode) (r : List Nat) (key count : Nat) :
    (bumpRemove t r key count).item_index = t.item_index := by
  cases t with
  | mk ii cc ch => cases r <;> rfl

theorem bumpRemove_child_count (t : TreeNode) (r : List Nat) (key count : Nat) :
    (bumpRemove t r key count).child_count = t.child_count - count := by
  cases t with
  | mk ii cc ch => cases r <;> rfl

theorem childWithKey_mapChild (l : List TreeNode) (k : Nat) (f : TreeNode → TreeNode)
    (hf : ∀ x, (f x).item_index = x.item_index) :
    childWithKey (mapChild l k f) k = (childWithKey l k).map f := by
  induction l with
  | nil => rfl
  | cons c rest ih =>
    by_cases hc : c.item_index = k
    · simp [mapChild, childWithKey, hc, List.find?, hf c]
    · simp [mapChild, childWithKey, hc, List.find?] at ih ⊢
      simpa [childWithKey] using ih

theorem mapChild_congr (l : List TreeNode) (k : Nat) (f : TreeNode → TreeNode) :
    (∀ c, childWithKey l k = some c → f c = c) → mapChild l k f = l := by
  induction l with
  | nil => intro _; rfl
  | cons c rest ih =>
    intro h
    by_cases hc : c.item_index = k
    · have : childWithKey (c :: rest) k = some c := by
        simp [childWithKey, List.find?, hc]
      simp [mapChild, hc, h c this]
    · have hck : childWithKey (c :: rest) k = childWithKey rest k := by
        simp [childWithKey, List.find?, hc]
      simp only [mapChild, if_neg hc]
      rw [ih (fun d hd => h d (by rw [hck]; exact hd))]

theorem mapChild_mapChild (l : List TreeNode) (k : Nat) (f g : TreeNode → TreeNode)
    (hf : ∀ x, (f x).item_index = x.item_index) :
    mapChild (mapChild l k f) k g = mapChild l k (fun x => g (f x)) := by
  induction l with
  | nil => rfl
  | cons c rest ih =>
    by_cases hc : c.item_index = k
    · simp [mapChild, hc, hf c]
    · simp [mapChild, hc, ih]

theorem getNodeAt_bumpInsert (q : List Nat) :
    ∀ (root : TreeNode) (r : List Nat) (n : TreeNode) (t : TreeNode),
      getNodeAt root q = some t →
      getNodeAt (bumpInsert root (q ++ r) n) q = some (bumpInsert t r n) := by
  induction q with
  | nil =>
    intro root r n t h
    injection h with h
    subst h
    rfl
  | cons k ks ih =>
    intro root r n t h
    cases root with
    | mk ii cc ch =>
      simp only [getNodeAt, TreeNode.children] at h
      cases hck : childWithKey ch k with
      | none => rw [hck] at h; cases h
      | some c =>
        rw [hck] at h
        show getNodeAt (TreeNode.mk ii (cc + n.child_count)
          (mapChild ch k (fun d => bumpInsert d (ks ++ r) n))) (k :: ks) = _
        simp only [getNodeAt, TreeNode.children]
        rw [childWithKey_mapChild ch k _ (fun x => bumpInsert_item_index x (ks ++ r) n),
          hck]
        exact ih c r n t h

theorem getNodeAt_bumpRemove (q : List Nat) :
    ∀ (root : TreeNode) (r : List Nat) (key count : Nat) (t : TreeNode),
      getNodeAt root q = some t →
      getNodeAt (bumpRemove root (q ++ r) key count) q = some (bumpRemove t r key count) := by
  induction q with
  | nil =>
    intro root r key count t h
    injection h with h
    subst h
    rfl
  | cons k ks ih =>
    intro root r key count t h
    cases root with
    | mk ii cc ch =>
      simp only [getNodeAt, TreeNode.children] at h
      cases hck : childWithKey ch k with
      | none => rw [hck] at h; cases h
      | some c =>
        rw [hck] at h
        show getNodeAt (TreeNode.mk ii (cc - count)
          (mapChild ch k (fun d => bumpRemove d (ks ++ r) key count))) (k :: ks) = _
        simp only [getNodeAt, TreeNode.children]
        rw [childWithKey_mapChild ch k _
          (fun x => bumpRemove_item_index x (ks ++ r) key count), hck]
        exact ih c r key count t h

theorem hasKey_false_iff (l : List TreeNode) (k : Nat) :
    hasKey l k = false ↔ ∀ c ∈ l, c.item_index ≠ k := by
  have h1 : hasKey l k = false ↔ childWithKey l k = none := by
    unfold hasKey
    cases childWithKey l k <;> simp
  rw [h1]
  unfold childWithKey
  rw [List.find?_eq_none]
  simp

theorem childWithKey_insertChild_self (ch : List TreeNode) (n : TreeNode) :
    childWithKey (insertChild ch n) n.item_index = some n := by
  induction ch with
  | nil => simp [insertChild, childWithKey, List.find?]
  | cons c rest ih =>
    unfold insertChild
    by_cases h1 : n.item_index < c.item_index
    · simp [if_pos h1, childWithKey, List.find?]
    · rw [if_neg h1]
      by_cases h2 : n.item_index = c.item_index
      · simp [if_pos h2, childWithKey, List.find?]
      · rw [if_neg h2]
        have hc : c.item_index ≠ n.item_index := fun h => h2 h.symm
        simp only [childWithKey, List.find?] at ih ⊢
        simp [hc]
        exact ih

theorem removeChild_insertChild (ch : List TreeNode) (n : TreeNode)
    (h : ∀ c ∈ ch, c.item_index ≠ n.item_index) :
    removeChild (insertChild ch n) n.item_index = ch := by
  induction ch with
  | nil => simp [insertChild, removeChild]
  | cons c rest ih =>
    have hc : c.item_index ≠ n.item_index := h c (by simp)
    unfold insertChild
    by_cases h1 : n.item_index < c.item_index
    · simp [if_pos h1, removeChild]
    · rw [if_neg h1]
      by_cases h2 : n.item_index = c.item_index
      · exact absurd h2.symm hc
      · rw [if_neg h2]
        simp only [removeChild, if_neg hc]
        rw [ih (fun d hd => h d (by simp [hd]))]

theorem mem_takeWhile_pred {α : Type} (q : α → Bool) :
    ∀ (l : List α) (x : α), x ∈ l.takeWhile q → q x = true := by
  intro l
  induction l with
  | nil => intro x hx; simp [List.takeWhile] at hx
  | cons a rest ih =>
    intro x hx
    rw [List.takeWhile_cons] at hx
    by_cases hq : q a = true
    · rw [if_pos hq] at hx
      rcases List.mem_cons.mp hx with h | h
      · subst h; exact hq
      · exact ih x h
    · rw [if_neg hq] at hx
      cases hx

theorem takeWhile_append_stop {α : Type} (A B : List α) (n : α) (q : α → Bool)
    (hA : ∀ a ∈ A, q a = true) (hn : q n = false) :
    List.takeWhile q (A ++ n :: B) = A := by
  induction A with
  | nil => simp [List.takeWhile_cons, hn]
  | cons a A ih =>
    have ha : q a = true := hA a (by simp)
    simp only [List.cons_append, List.takeWhile_cons, ha, if_true]
    rw [ih (fun b hb => hA b (by simp [hb]))]

theorem insertChild_eq_parts (ch : List TreeNode) (n : TreeNode)
    (h : ∀ c ∈ ch, c.item_index ≠ n.item_index) :
    insertChild ch n =
      ch.takeWhile (fun c => c.item_index < n.item_index) ++
        n :: ch.dropWhile (fun c => c.item_index < n.item_index) := by
  induction ch with
  | nil => simp [insertChild, List.takeWhile, List.dropWhile]
  | cons c rest ih =>
    have hc : c.item_index ≠ n.item_index := h c (by simp)
    unfold insertChild
    by_cases h1 : n.item_index < c.item_index
    · have hq : ¬ c.item_index < n.item_index := by omega
      simp [if_pos h1, List.takeWhile_cons, List.dropWhile_cons, hq]
    · rw [if_neg h1]
      by_cases h2 : n.item_index = c.item_index
      · exact absurd h2.symm hc
      · rw [if_neg h2]
        have hlt : c.item_index < n.item_index := by
          rcases Nat.lt_trichotomy c.item_index n.item_index with h | h | h
          · exact h
          · exact absurd h hc
          · exact absurd h h1
        have hq : decide (c.item_index < n.item_index) = true := by simp [hlt]
        rw [List.takeWhile_cons, List.dropWhile_cons, if_pos hq, if_pos hq]
        rw [ih (fun d hd => h d (by simp [hd]))]
        rfl

theorem takeWhile_sum_insertChild (ch : List TreeNode) (n : TreeNode)
    (h : ∀ c ∈ ch, c.item_index ≠ n.item_index) :
    (insertChild ch n).takeWhile (fun c => c.item_index < n.item_index) =
      ch.takeWhile (fun c => c.item_index < n.item_index) := by
  rw [insertChild_eq_parts ch n h]
  refine takeWhile_append_stop _ _ _ _ ?_ ?_
  · intro a ha
    exact mem_takeWhile_pred _ _ a ha
  · simp

theorem takeWhile_mapChild (ch : List TreeNode) (k : Nat) (f : TreeNode → TreeNode)
    (hf : ∀ x, (f x).item_index = x.item_index) :
    (mapChild ch k f).takeWhile (fun c => c.item_index < k) =
      ch.takeWhile (fun c => c.item_index < k) := by
  induction ch with
  | nil => rfl
  | cons c rest ih =>
    by_cases hc : c.item_index = k
    · have hq : ¬ c.item_index < k := by omega
      have hqf : ¬ (f c).item_index < k := by rw [hf c]; omega
      simp [mapChild, if_pos hc, List.takeWhile_cons, hq, hqf]
    · simp only [mapChild, if_neg hc, List.takeWhile_cons]
      by_cases hq : c.item_index < k
      · simp [hq, ih]
      · simp [hq]

theorem relative_position_congr_children (ii1 cc1 ii2 cc2 : Nat)
    (ch1 ch2 : List TreeNode) (key : Nat)
    (h : ch1.takeWhile (fun c => c.item_index < key) =
      ch2.takeWhile (fun c => c.item_index < key)) :
    relative_position (TreeNode.mk ii1 cc1 ch1) key =
      relative_position (TreeNode.mk ii2 cc2 ch2) key := by
  unfold relative_position
  simp only [TreeNode.children]
  rw [h]

theorem hasKey_insertChild (l : List TreeNode) (n : TreeNode) :
    hasKey (insertChild l n) n.item_index = true := by
  unfold hasKey
  rw [childWithKey_insertChild_self]
  rfl

theorem bumpInsert_nil_children (t n : TreeNode) :
    (bumpInsert t [] n).children = insertChild t.children n := by
  cases t
  rfl

theorem absPosition_cons (ii cc : Nat) (ch : List TreeNode) (k : Nat) (ks : List Nat)
    (key : Nat) (c : TreeNode) (hck : childWithKey ch k = some c) :
    absPosition (TreeNode.mk ii cc ch) (k :: ks) key =
      (absPosition c ks key).map
        (fun p => relative_position (TreeNode.mk ii cc ch) k + 1 + p) := by
  simp only [absPosition, TreeNode.children]
  rw [hck]
  show (match absPosition c ks key with
    | some p => some (relative_position (TreeNode.mk ii cc ch) k + 1 + p)
    | none => none) = _
  cases absPosition c ks key <;> rfl

theorem absPosition_isSome (pp : List Nat) :
    ∀ (root parent : TreeNode) (key : Nat), getNodeAt root pp = some parent →
      ∃ P, absPosition root pp key = some P := by
  induction pp with
  | nil =>
    intro root parent key h
    exact ⟨relative_position root key, rfl⟩
  | cons k ks ih =>
    intro root parent key h
    cases root with
    | mk ii cc ch =>
      simp only [getNodeAt, TreeNode.children] at h
      cases hck : childWithKey ch k with
      | none => rw [hck] at h; cases h
      | some c =>
        rw [hck] at h
        obtain ⟨P, hP⟩ := ih c parent key h
        refine ⟨relative_position (TreeNode.mk ii cc ch) k + 1 + P, ?_⟩
        rw [absPosition_cons ii cc ch k ks key c hck, hP]
        rfl

theorem absPosition_bumpInsert (pp : List Nat) :
    ∀ (root parent n : TreeNode), getNodeAt root pp = some parent →
      hasKey parent.children n.item_index = false →
      absPosition (bumpInsert root pp n) pp n.item_index =
        absPosition root pp n.item_index := by
  induction pp with
  | nil =>
    intro root parent n h hk
    injection h with h
    subst h
    cases root with
    | mk ii cc ch =>
      simp only [absPosition]
      have hne : ∀ c ∈ ch, c.item_index ≠ n.item_index :=
        (hasKey_false_iff ch n.item_index).mp hk
      exact congrArg some
        (relative_position_congr_children ii (cc + n.child_count) ii cc _ ch
          n.item_index (takeWhile_sum_insertChild ch n hne))
  | cons k ks ih =>
    intro root parent n h hk
    cases root with
    | mk ii cc ch =>
      simp only [getNodeAt, TreeNode.children] at h
      cases hck : childWithKey ch k with
      | none => rw [hck] at h; cases h
      | some c =>
        rw [hck] at h
        have hmap : childWithKey (mapChild ch k (fun d => bumpInsert d ks n)) k =
            some (bumpInsert c ks n) := by
          rw [childWithKey_mapChild ch k _ (fun x => bumpInsert_item_index x ks n), hck]
          rfl
        show absPosition (TreeNode.mk ii (cc + n.child_count)
          (mapChild ch k (fun d => bumpInsert d ks n))) (k :: ks) n.item_index = _
        rw [absPosition_cons _ _ _ k ks n.item_index _ hmap,
          absPosition_cons ii cc ch k ks n.item_index c hck,
          ih c parent n h hk]
        have hrel : relative_position (TreeNode.mk ii (cc + n.child_count)
            (mapChild ch k (fun d => bumpInsert d ks n))) k =
            relative_position (TreeNode.mk ii cc ch) k :=
          relative_position_congr_children _ _ _ _ _ _ k
            (takeWhile_mapChild ch k _ (fun x => bumpInsert_item_index x ks n))
        rw [hrel]

theorem bumpRemove_bumpInsert (pp : List Nat) :
    ∀ (root parent n : TreeNode), getNodeAt root pp = some parent →
      hasKey parent.children n.item_index = false →
      bumpRemove (bumpInsert root pp n) pp n.item_index n.child_count = root := by
  induction pp with
  | nil =>
    intro root parent n h hk
    injection h with h
    subst h
    cases root with
    | mk ii cc ch =>
      show TreeNode.mk ii (cc + n.child_count - n.child_count)
        (removeChild (insertChild ch n) n.item_index) = TreeNode.mk ii cc ch
      rw [Nat.add_sub_cancel,
        removeChild_insertChild ch n ((hasKey_false_iff ch n.item_index).mp hk)]
  | cons k ks ih =>
    intro root parent n h hk
    cases root with
    | mk ii cc ch =>
      simp only [getNodeAt, TreeNode.children] at h
      cases hck : childWithKey ch k with
      | none => rw [hck] at h; cases h
      | some c =>
        rw [hck] at h
        show TreeNode.mk ii (cc + n.child_count - n.child_count)
          (mapChild (mapChild ch k (fun d => bumpInsert d ks n)) k
            (fun d => bumpRemove d ks n.item_index n.child_count)) = TreeNode.mk ii cc ch
        rw [Nat.add_sub_cancel,
          mapChild_mapChild ch k _ _ (fun x => bumpInsert_item_index x ks n)]
        rw [mapChild_congr ch k _ ?_]
        intro d hd
        rw [hck] at hd
        injection hd with hd
        subst hd
        exact ih c parent n h hk

/-- C2: `set_expanded(node, f)` is a no-op — the tree is unchanged and no
notification is emitted — when `f` equals the node's current expansion
state; when `f` differs it changes the tree and emits exactly one
`items_changed` notification: `(P + 1, 0, node.child_count)` on expansion
and `(P + 1, node.child_count, 0)` on collapse, where `P` is the node's
absolute position in the flattened visible list, and every ancestor along
the parent path (the parent up to and including the root) has its
`child_count` adjusted by plus (respectively minus) `node.child_count`. -/
theorem set_expanded_spec :
    (∀ (root : TreeNode) (pp : List Nat) (node parent : TreeNode) (flag : Bool),
      getNodeAt root pp = some parent →
      hasKey parent.children node.item_index = flag →
      TreeListModel.set_expanded root pp node flag = some (root, [])) ∧
    (∀ (root : TreeNode) (pp : List Nat) (node parent : TreeNode) (P : Nat),
      getNodeAt root pp = some parent →
      hasKey parent.children node.item_index = false →
      absPosition root pp node.item_index = some P →
      TreeListModel.set_expanded root pp node true =
        some (bumpInsert root pp node, [(P + 1, 0, node.child_count)])) ∧
    (∀ (root : TreeNode) (pp : List Nat) (node parent : TreeNode) (P : Nat),
      getNodeAt root pp = some parent →
      hasKey parent.children node.item_index = true →
      absPosition root pp node.item_index = some P →
      TreeListModel.set_expanded root pp node false =
        some (bumpRemove root pp node.item_index node.child_count,
          [(P + 1, node.child_count, 0)])) ∧
    (∀ (root : TreeNode) (q r : List Nat) (n t : TreeNode),
      getNodeAt root q = some t →
      (getNodeAt (bumpInsert root (q ++ r) n) q).map TreeNode.child_count =
        some (t.child_count + n.child_count)) ∧
    (∀ (root : TreeNode) (q r : List Nat) (key count : Nat) (t : TreeNode),
      getNodeAt root q = some t →
      (getNodeAt (bumpRemove root (q ++ r) key count) q).map TreeNode.child_count =
        some (t.child_count - count)) := by
  refine ⟨?_, ?_, ?_, ?_, ?_⟩
  · intro root pp node parent flag h hk
    unfold TreeListModel.set_expanded
    rw [h]
    simp [hk]
  · intro root pp node parent P h hk hP
    unfold TreeListModel.set_expanded
    rw [h]
    simp [hk, hP]
  · intro root pp node parent P h hk hP
    unfold TreeListModel.set_expanded
    rw [h]
    simp [hk, hP]
  · intro root q r n t h
    rw [getNodeAt_bumpInsert q root r n t h]
    exact congrArg some (bumpInsert_child_count t r n)
  · intro root q r key count t h
    rw [getNodeAt_bumpRemove q root r key count t h]
    exact congrArg some (bumpRemove_child_count t r key count)

/-- C2 witness: under a root with two visible rows, expanding a fresh node
at `item_index = 1` with two visible descendants emits
`items_changed(2, 0, 2)` and bumps the root's `child_count` from 2 to 4;
requesting expansion of an already-expanded key (or collapse of a
collapsed one) is a no-op. -/
theorem set_expanded_spec_witness :
    TreeListModel.set_expanded (TreeNode.mk 0 2 []) [] (TreeNode.mk 1 2 []) true =
      some (TreeNode.mk 0 4 [TreeNode.mk 1 2 []], [(2, 0, 2)]) ∧
    TreeListModel.set_expanded (TreeNode.mk 0 2 []) [] (TreeNode.mk 1 2 []) false =
      some (TreeNode.mk 0 2 [], []) ∧
    TreeListModel.set_expanded (TreeNode.mk 0 4 [TreeNode.mk 1 2 []]) []
      (TreeNode.mk 1 2 []) false =
      some (TreeNode.mk 0 2 [], [(2, 2, 0)]) ∧
    (getNodeAt (bumpInsert (TreeNode.mk 0 2 []) [] (TreeNode.mk 1 2 [])) []).map
      TreeNode.child_count = some 4 := by
  refine ⟨?_, ?_, ?_, ?_⟩
  · exact set_expanded_spec.2.1 (TreeNode.mk 0 2 []) [] (TreeNode.mk 1 2 [])
      (TreeNode.mk 0 2 []) 1 rfl rfl rfl
  · exact set_expanded_spec.1 (TreeNode.mk 0 2 []) [] (TreeNode.mk 1 2 [])
      (TreeNode.mk 0 2 []) false rfl rfl
  · exact set_expanded_spec.2.2.1 (TreeNode.mk 0 4 [TreeNode.mk 1 2 []]) []
      (TreeNode.mk 1 2 []) (TreeNode.mk 0 4 [TreeNode.mk 1 2 []]) 1 rfl rfl rfl
  · exact set_expanded_spec.2.2.2.1 (TreeNode.mk 0 2 []) [] [] (TreeNode.mk 1 2 [])
      (TreeNode.mk 0 2 []) rfl

/-- C5: expanding a collapsed node and then collapsing it again, with no
operation in between, returns the tree to exactly its previous state (so
`n_items()` is restored), the two notifications being `(P + 1, 0, k)` and
`(P + 1, k, 0)` for the same position `P` and the same
`k = node.child_count`; in between, `n_items` was larger by `k`. -/
theorem expand_collapse_spec :
    ∀ (root : TreeNode) (pp : List Nat) (node parent : TreeNode),
      getNodeAt root pp = some parent →
      hasKey parent.children node.item_index = false →
      ∃ P,
        TreeListModel.set_expanded root pp node true =
          some (bumpInsert root pp node, [(P + 1, 0, node.child_count)]) ∧
        TreeListModel.set_expanded (bumpInsert root pp node) pp node false =
          some (root, [(P + 1, node.child_count, 0)]) ∧
        TreeListModel.n_items (bumpInsert root pp node) =
          TreeListModel.n_items root + node.child_count := by
  intro root pp node parent h hk
  obtain ⟨P, hP⟩ := absPosition_isSome pp root parent node.item_index h
  refine ⟨P, ?_, ?_, ?_⟩
  · unfold TreeListModel.set_expanded
    rw [h]
    simp [hk, hP]
  · have h2 := getNodeAt_bumpInsert pp root [] node parent h
    rw [List.append_nil] at h2
    have hk2 : hasKey (bumpInsert parent [] node).children node.item_index = true := by
      rw [bumpInsert_nil_children]
      exact hasKey_insertChild parent.children node
    unfold TreeListModel.set_expanded
    rw [h2]
    simp [hk2, absPosition_bumpInsert pp root parent node h hk, hP,
      bumpRemove_bumpInsert pp root parent node h hk]
  · exact bumpInsert_child_count root pp node

/-- C5 witness: the expand/collapse pair on a fresh node with two visible
descendants under a two-row root: notifications `(2, 0, 2)` then
`(2, 2, 0)`, and the original root (hence `n_items = 2`) is restored. -/
theorem expand_collapse_spec_witness :
    TreeListModel.set_expanded (TreeNode.mk 0 2 []) [] (TreeNode.mk 1 2 []) true =
      some (TreeNode.mk 0 4 [TreeNode.mk 1 2 []], [(2, 0, 2)]) ∧
    TreeListModel.set_expanded (TreeNode.mk 0 4 [TreeNode.mk 1 2 []]) []
      (TreeNode.mk 1 2 []) false = some (TreeNode.mk 0 2 [], [(2, 2, 0)]) := by
  obtain ⟨P, h1, h2, h3⟩ := expand_collapse_spec (TreeNode.mk 0 2 []) []
    (TreeNode.mk 1 2 []) (TreeNode.mk 0 2 []) rfl rfl
  have hP : P = 1 := by
    have h4 : TreeListModel.set_expanded (TreeNode.mk 0 2 []) [] (TreeNode.mk 1 2 []) true =
      some (TreeNode.mk 0 4 [TreeNode.mk 1 2 []], [(2, 0, 2)]) := rfl
    rw [h4] at h1
    injection h1 with h1
    have h5 := congrArg Prod.snd h1
    simp at h5
    omega
  subst hP
  exact ⟨h1, h2⟩

theorem sortedTree_pairwise {t : TreeNode} (h : SortedTree t) :
    List.Pairwise (fun a b => a.item_index < b.item_index) t.children := by
  cases h
  assumption

theorem sortedTree_child {t : TreeNode} (h : SortedTree t) :
    ∀ c ∈ t.children, SortedTree c := by
  cases h
  assumption

theorem WF_cc {cap : List Nat → Nat} {path : List Nat} {t : TreeNode}
    (h : WF cap path t) :
    t.child_count = cap path + ((t.children.map TreeNode.child_count).sum) := by
  cases h
  assumption

theorem WF_child {cap : List Nat → Nat} {path : List Nat} {t : TreeNode}
    (h : WF cap path t) :
    ∀ c ∈ t.children, WF cap (path ++ [c.item_index]) c := by
  cases h
  assumption

theorem childWithKey_mem {l : List TreeNode} {k : Nat} {c : TreeNode}
    (h : childWithKey l k = some c) : c ∈ l ∧ c.item_index = k := by
  unfold childWithKey at h
  refine ⟨List.mem_of_find?_eq_some h, ?_⟩
  have h2 := List.find?_some h
  simpa using h2

theorem childWithKey_of_mem_pairwise {l : List TreeNode} {c : TreeNode}
    (hs : List.Pairwise (fun a b => a.item_index < b.item_index) l)
    (hm : c ∈ l) : childWithKey l c.item_index = some c := by
  induction l with
  | nil => cases hm
  | cons a rest ih =>
    rcases List.mem_cons.mp hm with h | h
    · subst h
      unfold childWithKey
      simp [List.find?_cons]
    · have ha : a.item_index < c.item_index := (List.pairwise_cons.mp hs).1 c h
      have hd : decide (a.item_index = c.item_index) = false := by simp; omega
      unfold childWithKey at ih ⊢
      rw [List.find?_cons, hd]
      exact ih (List.pairwise_cons.mp hs).2 h

theorem getNodeAt_snoc (acc : List Nat) :
    ∀ (root : TreeNode) (k : Nat),
      getNodeAt root (acc ++ [k]) =
        (getNodeAt root acc).bind (fun t => childWithKey t.children k) := by
  induction acc with
  | nil =>
    intro root k
    cases hck : childWithKey root.children k <;> simp [getNodeAt, hck]
  | cons a acc ih =>
    intro root k
    cases root with
    | mk ii cc ch =>
      show (match childWithKey ch a with
        | some c => getNodeAt c (acc ++ [k])
        | none => none) =
        (match childWithKey ch a with
          | some c => getNodeAt c acc
          | none => none).bind (fun t => childWithKey t.children k)
      cases hck : childWithKey ch a <;> simp [ih]

theorem getNodeAt_sorted (q : List Nat) :
    ∀ (t s : TreeNode), SortedTree t → getNodeAt t q = some s → SortedTree s := by
  induction q with
  | nil =>
    intro t s ht h
    injection h with h
    subst h
    exact ht
  | cons k ks ih =>
    intro t s ht h
    cases t with
    | mk ii cc ch =>
      simp only [getNodeAt, TreeNode.children] at h
      cases hck : childWithKey ch k with
      | none => rw [hck] at h; cases h
      | some c =>
        rw [hck] at h
        exact ih c s (sortedTree_child ht c (childWithKey_mem hck).1) h

theorem getNodeAt_WF (q : List Nat) :
    ∀ (cap : List Nat → Nat) (base : List Nat) (t s : TreeNode),
      WF cap base t → getNodeAt t q = some s → WF cap (base ++ q) s := by
  induction q with
  | nil =>
    intro cap base t s ht h
    injection h with h
    subst h
    simpa using ht
  | cons k ks ih =>
    intro cap base t s ht h
    cases t with
    | mk ii cc ch =>
      simp only [getNodeAt, TreeNode.children] at h
      cases hck : childWithKey ch k with
      | none => rw [hck] at h; cases h
      | some c =>
        rw [hck] at h
        obtain ⟨hmem, hkey⟩ := childWithKey_mem hck
        have hc : WF cap (base ++ [k]) c := by
          have h2 := WF_child ht c hmem
          rwa [hkey] at h2
        have h3 := ih cap (base ++ [k]) c s hc h
        rwa [List.append_assoc] at h3

theorem descendStep_found_mem : ∀ {l : List TreeNode} {rel : Nat} {c : TreeNode},
    descendStep l rel = ScanResult.found c → c ∈ l := by
  intro l
  induction l with
  | nil => intro rel c h; cases h
  | cons a rest ih =>
    intro rel c h
    simp only [descendStep] at h
    split at h
    · cases h
    · split at h
      · injection h with h; subst h; simp
      · split at h
        · cases h
        · exact List.mem_cons_of_mem a (ih h)

theorem descendStep_descend_mem : ∀ {l : List TreeNode} {rel : Nat} {c : TreeNode}
    {r : Nat}, descendStep l rel = ScanResult.descend c r → c ∈ l := by
  intro l
  induction l with
  | nil => intro rel c r h; cases h
  | cons a rest ih =>
    intro rel c r h
    simp only [descendStep] at h
    split at h
    · cases h
    · split at h
      · cases h
      · split at h
        · injection h with h1 h2; subst h1; simp
        · exact List.mem_cons_of_mem a (ih h)

theorem descendStep_fresh_cases : ∀ (l : List TreeNode) (rel off : Nat),
    descendStep l rel = ScanResult.fresh off →
    off = rel ∨ ∃ c ∈ l, c.item_index < off := by
  intro l
  induction l with
  | nil =>
    intro rel off h
    injection h with h
    exact Or.inl h.symm
  | cons a rest ih =>
    intro rel off h
    simp only [descendStep] at h
    split at h
    · injection h with h
      exact Or.inl h.symm
    · split at h
      · cases h
      · split at h
        · cases h
        · rename_i h1 h2 h3
          rcases ih (rel - a.child_count) off h with h4 | ⟨d, hd, hlt⟩
          · refine Or.inr ⟨a, by simp, ?_⟩
            have : a.item_index + a.child_count < rel := by omega
            omega
          · exact Or.inr ⟨d, List.mem_cons_of_mem a hd, hlt⟩

theorem descendStep_fresh_not_key : ∀ (l : List TreeNode) (rel off : Nat),
    List.Pairwise (fun a b => a.item_index < b.item_index) l →
    descendStep l rel = ScanResult.fresh off →
    ∀ c ∈ l, c.item_index ≠ off := by
  intro l
  induction l with
  | nil => intro rel off _ _ c hc; cases hc
  | cons a rest ih =>
    intro rel off hs h c hc
    obtain ⟨hhead, htail⟩ := List.pairwise_cons.mp hs
    simp only [descendStep] at h
    split at h
    · rename_i h1
      injection h with h
      subst h
      rcases List.mem_cons.mp hc with h2 | h2
      · subst h2; omega
      · have := hhead c h2
        omega
    · split at h
      · cases h
      · split at h
        · cases h
        · rename_i h1 h2 h3
          rcases List.mem_cons.mp hc with h4 | h4
          · subst h4
            rcases descendStep_fresh_cases rest (rel - c.child_count) off h with
              h5 | ⟨d, hd, hlt⟩
            · have : c.item_index + c.child_count < rel := by omega
              omega
            · have := hhead d hd
              omega
          · exact ih (rel - a.child_count) off htail h c h4

theorem lookupAux_valid : ∀ (rel : Nat) (acc : List Nat) (parent root : TreeNode),
    getNodeAt root acc = some parent → SortedTree root →
    (∀ pp n, lookupAux acc parent rel = Row.expanded pp n →
      ∃ par, getNodeAt root pp = some par ∧
        childWithKey par.children n.item_index = some n) ∧
    (∀ pp off, lookupAux acc parent rel = Row.fresh pp off →
      ∃ par, getNodeAt root pp = some par ∧ hasKey par.children off = false) := by
  intro rel
  induction rel using Nat.strong_induction_on with
  | _ rel ih =>
    intro acc parent root hacc hsroot
    have hsparent : SortedTree parent := getNodeAt_sorted acc root parent hsroot hacc
    constructor
    · intro pp n h
      rw [lookupAux] at h
      split at h
      · cases h
      · rename_i c heq
        injection h with h1 h2
        subst h1; subst h2
        exact ⟨parent, hacc, childWithKey_of_mem_pairwise
          (sortedTree_pairwise hsparent) (descendStep_found_mem heq)⟩
      · rename_i c r heq
        have hr : r < rel := descendStep_descend_lt heq
        have hmem := descendStep_descend_mem heq
        have hchild : getNodeAt root (acc ++ [c.item_index]) = some c := by
          rw [getNodeAt_snoc, hacc]
          exact childWithKey_of_mem_pairwise (sortedTree_pairwise hsparent) hmem
        exact (ih r hr (acc ++ [c.item_index]) c root hchild hsroot).1 pp n h
    · intro pp off h
      rw [lookupAux] at h
      split at h
      · rename_i off0 heq
        injection h with h1 h2
        subst h1; subst h2
        refine ⟨parent, hacc, ?_⟩
        rw [hasKey_false_iff]
        exact descendStep_fresh_not_key parent.children rel _
          (sortedTree_pairwise hsparent) heq
      · cases h
      · rename_i c r heq
        have hr : r < rel := descendStep_descend_lt heq
        have hmem := descendStep_descend_mem heq
        have hchild : getNodeAt root (acc ++ [c.item_index]) = some c := by
          rw [getNodeAt_snoc, hacc]
          exact childWithKey_of_mem_pairwise (sortedTree_pairwise hsparent) hmem
        exact (ih r hr (acc ++ [c.item_index]) c root hchild hsroot).2 pp off h

theorem mem_insertChild {l : List TreeNode} {n c : TreeNode}
    (h : c ∈ insertChild l n) : c = n ∨ c ∈ l := by
  induction l with
  | nil =>
    simp only [insertChild] at h
    rcases List.mem_singleton.mp h with h
    exact Or.inl h
  | cons a rest ih =>
    simp only [insertChild] at h
    split at h
    · rcases List.mem_cons.mp h with h | h
      · exact Or.inl h
      · exact Or.inr h
    · split at h
      · rcases List.mem_cons.mp h with h | h
        · exact Or.inl h
        · exact Or.inr (List.mem_cons_of_mem a h)
      · rcases List.mem_cons.mp h with h | h
        · exact Or.inr (by simp [h])
        · rcases ih h with h | h
          · exact Or.inl h
          · exact Or.inr (List.mem_cons_of_mem a h)

theorem sorted_insertChild (l : List TreeNode) (n : TreeNode)
    (hs : List.Pairwise (fun a b => a.item_index < b.item_index) l) :
    List.Pairwise (fun a b => a.item_index < b.item_index) (insertChild l n) := by
  induction l with
  | nil => simp [insertChild]
  | cons a rest ih =>
    obtain ⟨hhead, htail⟩ := List.pairwise_cons.mp hs
    simp only [insertChild]
    split
    · rename_i h1
      refine List.pairwise_cons.mpr ⟨?_, hs⟩
      intro b hb
      rcases List.mem_cons.mp hb with h | h
      · subst h; exact h1
      · have := hhead b h; omega
    · split
      · rename_i h1 h2
        refine List.pairwise_cons.mpr ⟨?_, htail⟩
        intro b hb
        have := hhead b hb
        omega
      · rename_i h1 h2
        have h3 : a.item_index < n.item_index := by omega
        refine List.pairwise_cons.mpr ⟨?_, ih htail⟩
        intro b hb
        rcases mem_insertChild hb with h | h
        · subst h; exact h3
        · exact hhead b h

theorem sum_insertChild (l : List TreeNode) (n : TreeNode)
    (h : ∀ c ∈ l, c.item_index ≠ n.item_index) :
    ((insertChild l n).map TreeNode.child_count).sum =
      ((l.map TreeNode.child_count).sum) + n.child_count := by
  rw [insertChild_eq_parts l n h]
  have happ : ∀ (L1 L2 : List TreeNode),
      (((L1 ++ L2).map TreeNode.child_count).sum) =
        ((L1.map TreeNode.child_count).sum) + ((L2.map TreeNode.child_count).sum) := by
    intro L1 L2
    simp
  have hsum := happ (List.takeWhile (fun c => decide (c.item_index < n.item_index)) l)
    (List.dropWhile (fun c => decide (c.item_index < n.item_index)) l)
  rw [List.takeWhile_append_dropWhile] at hsum
  rw [happ]
  simp
  omega

theorem mapChild_eq_parts (l : List TreeNode) (k : Nat) (f : TreeNode → TreeNode)
    {c : TreeNode} (h : childWithKey l k = some c) :
    ∃ A B, l = A ++ c :: B ∧ mapChild l k f = A ++ f c :: B := by
  induction l with
  | nil => cases h
  | cons a rest ih =>
    by_cases ha : a.item_index = k
    · have hac : a = c := by
        unfold childWithKey at h
        rw [List.find?_cons, show decide (a.item_index = k) = true by simp [ha]] at h
        injection h
      subst hac
      exact ⟨[], rest, rfl, by simp [mapChild, ha]⟩
    · have h2 : childWithKey rest k = some c := by
        unfold childWithKey at h ⊢
        rw [List.find?_cons, show decide (a.item_index = k) = false by simp [ha]] at h
        exact h
      obtain ⟨A, B, hl, hm⟩ := ih h2
      exact ⟨a :: A, B, by simp [hl], by simp [mapChild, ha, hm]⟩

theorem removeChild_eq_parts (l : List TreeNode) (k : Nat)
    {c : TreeNode} (h : childWithKey l k = some c) :
    ∃ A B, l = A ++ c :: B ∧ removeChild l k = A ++ B := by
  induction l with
  | nil => cases h
  | cons a rest ih =>
    by_cases ha : a.item_index = k
    · have hac : a = c := by
        unfold childWithKey at h
        rw [List.find?_cons, show decide (a.item_index = k) = true by simp [ha]] at h
        injection h
      subst hac
      exact ⟨[], rest, rfl, by simp [removeChild, ha]⟩
    · have h2 : childWithKey rest k = some c := by
        unfold childWithKey at h ⊢
        rw [List.find?_cons, show decide (a.item_index = k) = false by simp [ha]] at h
        exact h
      obtain ⟨A, B, hl, hm⟩ := ih h2
      exact ⟨a :: A, B, by simp [hl], by simp [removeChild, ha, hm]⟩

theorem mem_mapChild {l : List TreeNode} {k : Nat} {f : TreeNode → TreeNode}
    {x : TreeNode} (h : x ∈ mapChild l k f) : x ∈ l ∨ ∃ c ∈ l, x = f c := by
  induction l with
  | nil => cases h
  | cons a rest ih =>
    simp only [mapChild] at h
    split at h
    · rcases List.mem_cons.mp h with h | h
      · exact Or.inr ⟨a, by simp, h⟩
      · exact Or.inl (List.mem_cons_of_mem a h)
    · rcases List.mem_cons.mp h with h | h
      · exact Or.inl (by simp [h])
      · rcases ih h with h | ⟨c, hc, hx⟩
        · exact Or.inl (List.mem_cons_of_mem a h)
        · exact Or.inr ⟨c, List.mem_cons_of_mem a hc, hx⟩

theorem sorted_mapChild (l : List TreeNode) (k : Nat) (f : TreeNode → TreeNode)
    (hf : ∀ x, (f x).item_index = x.item_index)
    (hs : List.Pairwise (fun a b => a.item_index < b.item_index) l) :
    List.Pairwise (fun a b => a.item_index < b.item_index) (mapChild l k f) := by
  induction l with
  | nil => simp [mapChild]
  | cons a rest ih =>
    obtain ⟨hhead, htail⟩ := List.pairwise_cons.mp hs
    simp only [mapChild]
    split
    · refine List.pairwise_cons.mpr ⟨?_, htail⟩
      intro b hb
      rw [hf a]
      exact hhead b hb
    · refine List.pairwise_cons.mpr ⟨?_, ih htail⟩
      intro b hb
      rcases mem_mapChild hb with h | ⟨c, hc, hx⟩
      · exact hhead b h
      · subst hx
        rw [hf c]
        exact hhead c hc

theorem mem_le_sum_cc {l : List TreeNode} {c : TreeNode} (h : c ∈ l) :
    c.child_count ≤ ((l.map TreeNode.child_count).sum) := by
  induction l with
  | nil => cases h
  | cons a rest ih =>
    rcases List.mem_cons.mp h with h | h
    · subst h; simp
    · have := ih h
      simp
      omega

theorem cc_mono (q : List Nat) :
    ∀ (cap : List Nat → Nat) (base : List Nat) (t s : TreeNode),
      WF cap base t → getNodeAt t q = some s →
      s.child_count ≤ t.child_count := by
  induction q with
  | nil =>
    intro cap base t s hwf h
    injection h with h
    subst h
    exact le_refl _
  | cons k ks ih =>
    intro cap base t s hwf h
    cases t with
    | mk ii cc ch =>
      simp only [getNodeAt, TreeNode.children] at h
      cases hck : childWithKey ch k with
      | none => rw [hck] at h; cases h
      | some c =>
        rw [hck] at h
        obtain ⟨hmem, hkey⟩ := childWithKey_mem hck
        have hcw : WF cap (base ++ [k]) c := by
          have h2 := WF_child hwf c hmem
          rwa [hkey] at h2
        have h3 := ih cap (base ++ [k]) c s hcw h
        have h4 : c.child_count ≤ cc := by
          have h5 : cc = cap base + ((ch.map TreeNode.child_count).sum) := WF_cc hwf
          have h6 := mem_le_sum_cc hmem
          omega
        exact le_trans h3 h4

theorem cn_bound {cap : List Nat → Nat} {base : List Nat} {c par cn : TreeNode}
    {ks : List Nat} {key : Nat}
    (hwf : WF cap base c) (hget : getNodeAt c ks = some par)
    (hck : childWithKey par.children key = some cn) :
    cn.child_count ≤ c.child_count := by
  have hpw : WF cap (base ++ ks) par := getNodeAt_WF ks cap base c par hwf hget
  have h1 : cn.child_count ≤ par.child_count := by
    have h2 := WF_cc hpw
    have h3 := mem_le_sum_cc (childWithKey_mem hck).1
    omega
  exact le_trans h1 (cc_mono ks cap base c par hwf hget)

theorem bumpInsert_preserves (pp : List Nat) :
    ∀ (cap : List Nat → Nat) (base : List Nat) (root parent n : TreeNode),
      WF cap base root → SortedTree root →
      getNodeAt root pp = some parent →
      hasKey parent.children n.item_index = false →
      WF cap (base ++ pp ++ [n.item_index]) n → SortedTree n →
      WF cap base (bumpInsert root pp n) ∧ SortedTree (bumpInsert root pp n) := by
  induction pp with
  | nil =>
    intro cap base root parent n hwf hs h hk hwn hsn
    injection h with h
    subst h
    cases root with
    | mk ii cc ch =>
      have hne : ∀ c ∈ ch, c.item_index ≠ n.item_index :=
        (hasKey_false_iff ch n.item_index).mp hk
      have hcc : cc = cap base + ((ch.map TreeNode.child_count).sum) := WF_cc hwf
      constructor
      · refine WF.mk base ii _ _ ?_ ?_
        · rw [sum_insertChild ch n hne]
          omega
        · intro c hc
          rcases mem_insertChild hc with hcn | hcm
          · subst hcn
            simpa using hwn
          · exact WF_child hwf c hcm
      · refine SortedTree.mk ii _ _
          (sorted_insertChild ch n (sortedTree_pairwise hs)) ?_
        intro c hc
        rcases mem_insertChild hc with hcn | hcm
        · subst hcn; exact hsn
        · exact sortedTree_child hs c hcm
  | cons k ks ih =>
    intro cap base root parent n hwf hs h hk hwn hsn
    cases root with
    | mk ii cc ch =>
      simp only [getNodeAt, TreeNode.children] at h
      cases hck : childWithKey ch k with
      | none => rw [hck] at h; cases h
      | some c =>
        rw [hck] at h
        obtain ⟨hmem, hkey⟩ := childWithKey_mem hck
        have hcw : WF cap (base ++ [k]) c := by
          have h2 := WF_child hwf c hmem
          rwa [hkey] at h2
        have hcs : SortedTree c := sortedTree_child hs c hmem
        have hwn' : WF cap ((base ++ [k]) ++ ks ++ [n.item_index]) n := by
          have heq : ((base ++ [k]) ++ ks ++ [n.item_index]) =
              (base ++ (k :: ks) ++ [n.item_index]) := by simp
          rw [heq]
          exact hwn
        obtain ⟨hwc', hsc'⟩ := ih cap (base ++ [k]) c parent n hcw hcs h hk hwn' hsn
        obtain ⟨A, B, hchAB, hmapAB⟩ :=
          mapChild_eq_parts ch k (fun d => bumpInsert d ks n) hck
        have hcc : cc = cap base + ((ch.map TreeNode.child_count).sum) := WF_cc hwf
        have hsumA : ∀ (L1 L2 : List TreeNode),
            (((L1 ++ L2).map TreeNode.child_count).sum) =
              ((L1.map TreeNode.child_count).sum) +
              ((L2.map TreeNode.child_count).sum) := by
          intro L1 L2
          simp
        constructor
        · refine WF.mk base ii _ _ ?_ ?_
          · rw [hmapAB, hsumA]
            rw [hchAB, hsumA] at hcc
            have hbcc : (bumpInsert c ks n).child_count =
                c.child_count + n.child_count := bumpInsert_child_count c ks n
            simp only [List.map_cons, List.sum_cons] at hcc ⊢
            omega
          · intro d hd
            rw [hmapAB] at hd
            rcases List.mem_append.mp hd with hdA | hdB
            · refine WF_child hwf d ?_
              rw [hchAB]
              exact List.mem_append.mpr (Or.inl hdA)
            · rcases List.mem_cons.mp hdB with hdc | hdB
              · subst hdc
                have hii : (bumpInsert c ks n).item_index = k := by
                  rw [bumpInsert_item_index]; exact hkey
                rw [hii]
                exact hwc'
              · refine WF_child hwf d ?_
                rw [hchAB]
                exact List.mem_append.mpr (Or.inr (List.mem_cons_of_mem c hdB))
        · refine SortedTree.mk ii _ _ ?_ ?_
          · exact sorted_mapChild ch k _ (fun x => bumpInsert_item_index x ks n)
              (sortedTree_pairwise hs)
          · intro d hd
            rw [hmapAB] at hd
            rcases List.mem_append.mp hd with hdA | hdB
            · exact sortedTree_child hs d
                (by rw [hchAB]; exact List.mem_append.mpr (Or.inl hdA))
            · rcases List.mem_cons.mp hdB with hdc | hdB
              · subst hdc
                exact hsc'
              · exact sortedTree_child hs d (by
                  rw [hchAB]
                  exact List.mem_append.mpr (Or.inr (List.mem_cons_of_mem c hdB)))

theorem bumpRemove_preserves (pp : List Nat) :
    ∀ (cap : List Nat → Nat) (base : List Nat) (root parent cn : TreeNode) (key : Nat),
      WF cap base root → SortedTree root →
      getNodeAt root pp = some parent →
      childWithKey parent.children key = some cn →
      WF cap base (bumpRemove root pp key cn.child_count) ∧
        SortedTree (bumpRemove root pp key cn.child_count) := by
  induction pp with
  | nil =>
    intro cap base root parent cn key hwf hs h hck
    injection h with h
    subst h
    cases root with
    | mk ii cc ch =>
      obtain ⟨A, B, hchAB, hremAB⟩ := removeChild_eq_parts ch key hck
      have hcc : cc = cap base + ((ch.map TreeNode.child_count).sum) := WF_cc hwf
      have hsumA : ∀ (L1 L2 : List TreeNode),
          (((L1 ++ L2).map TreeNode.child_count).sum) =
            ((L1.map TreeNode.child_count).sum) +
            ((L2.map TreeNode.child_count).sum) := by
        intro L1 L2
        simp
      constructor
      · refine WF.mk base ii _ _ ?_ ?_
        · show cc - cn.child_count =
            cap base + (((removeChild ch key).map TreeNode.child_count).sum)
          rw [hremAB, hsumA]
          rw [hchAB, hsumA] at hcc
          simp only [List.map_cons, List.sum_cons] at hcc
          omega
        · intro d hd
          rw [hremAB] at hd
          refine WF_child hwf d ?_
          rw [hchAB]
          rcases List.mem_append.mp hd with hdA | hdB
          · exact List.mem_append.mpr (Or.inl hdA)
          · exact List.mem_append.mpr (Or.inr (List.mem_cons_of_mem cn hdB))
      · refine SortedTree.mk ii _ _ ?_ ?_
        · show List.Pairwise (fun a b => a.item_index < b.item_index) (removeChild ch key)
          rw [hremAB]
          have hsub : List.Sublist (A ++ B) (A ++ cn :: B) :=
            List.Sublist.append_left (List.sublist_cons_self cn B) A
          have hp : List.Pairwise (fun a b => a.item_index < b.item_index)
              (A ++ cn :: B) := by
            rw [← hchAB]
            exact sortedTree_pairwise hs
          exact hp.sublist hsub
        · intro d hd
          rw [hremAB] at hd
          refine sortedTree_child hs d ?_
          rw [hchAB]
          rcases List.mem_append.mp hd with hdA | hdB
          · exact List.mem_append.mpr (Or.inl hdA)
          · exact List.mem_append.mpr (Or.inr (List.mem_cons_of_mem cn hdB))
  | cons k ks ih =>
    intro cap base root parent cn key hwf hs h hck
    cases root with
    | mk ii cc ch =>
      simp only [getNodeAt, TreeNode.children] at h
      cases hcc0 : childWithKey ch k with
      | none => rw [hcc0] at h; cases h
      | some c =>
        rw [hcc0] at h
        obtain ⟨hmem, hkey⟩ := childWithKey_mem hcc0
        have hcw : WF cap (base ++ [k]) c := by
          have h2 := WF_child hwf c hmem
          rwa [hkey] at h2
        have hcs : SortedTree c := sortedTree_child hs c hmem
        have hbound : cn.child_count ≤ c.child_count := cn_bound hcw h hck
        obtain ⟨hwc', hsc'⟩ := ih cap (base ++ [k]) c parent cn key hcw hcs h hck
        obtain ⟨A, B, hchAB, hmapAB⟩ :=
          mapChild_eq_parts ch k (fun d => bumpRemove d ks key cn.child_count) hcc0
        have hcc : cc = cap base + ((ch.map TreeNode.child_count).sum) := WF_cc hwf
        have hsumA : ∀ (L1 L2 : List TreeNode),
            (((L1 ++ L2).map TreeNode.child_count).sum) =
              ((L1.map TreeNode.child_count).sum) +
              ((L2.map TreeNode.child_count).sum) := by
          intro L1 L2
          simp
        constructor
        · refine WF.mk base ii _ _ ?_ ?_
          · rw [hmapAB, hsumA]
            rw [hchAB, hsumA] at hcc
            have hbcc : (bumpRemove c ks key cn.child_count).child_count =
                c.child_count - cn.child_count := bumpRemove_child_count c ks key _
            simp only [List.map_cons, List.sum_cons] at hcc ⊢
            omega
          · intro d hd
            rw [hmapAB] at hd
            rcases List.mem_append.mp hd with hdA | hdB
            · refine WF_child hwf d ?_
              rw [hchAB]
              exact List.mem_append.mpr (Or.inl hdA)
            · rcases List.mem_cons.mp hdB with hdc | hdB
              · subst hdc
                have hii : (bumpRemove c ks key cn.child_count).item_index = k := by
                  rw [bumpRemove_item_index]; exact hkey
                rw [hii]
                exact hwc'
              · refine WF_child hwf d ?_
                rw [hchAB]
                exact List.mem_append.mpr (Or.inr (List.mem_cons_of_mem c hdB))
        · refine SortedTree.mk ii _ _ ?_ ?_
          · exact sorted_mapChild ch k _
              (fun x => bumpRemove_item_index x ks key cn.child_count)
              (sortedTree_pairwise hs)
          · intro d hd
            rw [hmapAB] at hd
            rcases List.mem_append.mp hd with hdA | hdB
            · exact sortedTree_child hs d
                (by rw [hchAB]; exact List.mem_append.mpr (Or.inl hdA))
            · rcases List.mem_cons.mp hdB with hdc | hdB
              · subst hdc
                exact hsc'
              · exact sortedTree_child hs d (by
                  rw [hchAB]
                  exact List.mem_append.mpr (Or.inr (List.mem_cons_of_mem c hdB)))

theorem reachable_invariant :
    ∀ (cap : List Nat → Nat) (root : TreeNode), Reachable cap root →
      WF cap [] root ∧ SortedTree root := by
  intro cap root h
  induction h with
  | init =>
    constructor
    · exact WF.mk [] 0 (cap []) [] (by simp) (by intro c hc; cases hc)
    · exact SortedTree.mk 0 (cap []) [] (by simp) (by intro c hc; cases hc)
  | toggle root pos flag hr ih =>
    obtain ⟨hwf, hs⟩ := ih
    unfold applyToggle
    by_cases hpos : pos < root.child_count
    · rw [if_pos hpos]
      cases hrow : lookupAux [] root pos with
      | expanded pp n =>
        obtain ⟨par, hpar, hcw⟩ := (lookupAux_valid pos [] root root rfl hs).1 pp n hrow
        have hk : hasKey par.children n.item_index = true := by
          unfold hasKey
          rw [hcw]
          rfl
        show WF cap [] (((TreeListModel.set_expanded root pp n flag).map Prod.fst).getD root) ∧
          SortedTree (((TreeListModel.set_expanded root pp n flag).map Prod.fst).getD root)
        cases flag with
        | true =>
          have heq : TreeListModel.set_expanded root pp n true = some (root, []) := by
            unfold TreeListModel.set_expanded
            rw [hpar]
            simp [hk]
          rw [heq]
          exact ⟨hwf, hs⟩
        | false =>
          obtain ⟨P, hP⟩ := absPosition_isSome pp root par n.item_index hpar
          have heq : TreeListModel.set_expanded root pp n false =
              some (bumpRemove root pp n.item_index n.child_count,
                [(P + 1, n.child_count, 0)]) := by
            unfold TreeListModel.set_expanded
            rw [hpar]
            simp [hk, hP]
          rw [heq]
          exact bumpRemove_preserves pp cap [] root par n n.item_index hwf hs hpar hcw
      | fresh pp off =>
        obtain ⟨par, hpar, hkf⟩ := (lookupAux_valid pos [] root root rfl hs).2 pp off hrow
        show WF cap [] (((TreeListModel.set_expanded root pp (materializeFresh cap pp off)
            flag).map Prod.fst).getD root) ∧
          SortedTree (((TreeListModel.set_expanded root pp (materializeFresh cap pp off)
            flag).map Prod.fst).getD root)
        cases flag with
        | false =>
          have heq : TreeListModel.set_expanded root pp
              (materializeFresh cap pp off) false = some (root, []) := by
            unfold TreeListModel.set_expanded
            rw [hpar]
            simp [materializeFresh, TreeNode.item_index, hkf]
          rw [heq]
          exact ⟨hwf, hs⟩
        | true =>
          obtain ⟨P, hP⟩ := absPosition_isSome pp root par off hpar
          have heq : TreeListModel.set_expanded root pp
              (materializeFresh cap pp off) true =
              some (bumpInsert root pp (materializeFresh cap pp off),
                [(P + 1, 0, (materializeFresh cap pp off).child_count)]) := by
            unfold TreeListModel.set_expanded
            rw [hpar]
            simp [materializeFresh, TreeNode.item_index, TreeNode.child_count, hkf, hP]
          rw [heq]
          have hwn : WF cap ([] ++ pp ++ [(materializeFresh cap pp off).item_index])
              (materializeFresh cap pp off) := by
            show WF cap ([] ++ pp ++ [off]) (TreeNode.mk off (cap (pp ++ [off])) [])
            refine WF.mk _ off _ [] ?_ ?_
            · simp
            · intro c hc
              cases hc
          have hsn : SortedTree (materializeFresh cap pp off) :=
            SortedTree.mk off _ [] (by simp) (by intro c hc; cases hc)
          exact bumpInsert_preserves pp cap [] root par (materializeFresh cap pp off)
            hwf hs hpar hkf hwn hsn
    · rw [if_neg hpos]
      exact ⟨hwf, hs⟩

/-- C3: in every tree-model state reachable from the initial root (whose
`child_count` is the capture's top-level item count) by item
materialisation and `set_expanded` operations, every retained node's
`child_count` equals its number of direct children in the capture plus
the sum of `child_count` over its currently expanded children. -/
theorem reachable_child_count_invariant :
    ∀ (cap : List Nat → Nat) (root : TreeNode), Reachable cap root →
      ∀ (q : List Nat) (t : TreeNode), getNodeAt root q = some t →
        t.child_count = cap q + ((t.children.map TreeNode.child_count).sum) := by
  intro cap root h q t hq
  have hw := (reachable_invariant cap root h).1
  have h2 := getNodeAt_WF q cap [] root t hw hq
  rw [List.nil_append] at h2
  exact WF_cc h2

/-- C3 witness: with a capture oracle reporting 2 direct children
everywhere, the initial root (child count 2, no expanded children)
satisfies the invariant: 2 = 2 + 0. -/
theorem reachable_child_count_invariant_witness :
    (TreeNode.mk 0 2 []).child_count =
      (fun _ : List Nat => 2) [] +
        ((([] : List TreeNode).map TreeNode.child_count).sum) :=
  reachable_child_count_invariant (fun _ => 2) (TreeNode.mk 0 2 [])
    Reachable.init [] (TreeNode.mk 0 2 []) rfl

theorem mapChild_ext (l : List TreeNode) (k : Nat) (f g : TreeNode → TreeNode)
    (h : ∀ c, childWithKey l k = some c → f c = g c) :
    mapChild l k f = mapChild l k g := by
  induction l with
  | nil => rfl
  | cons a rest ih =>
    by_cases ha : a.item_index = k
    · have hak : childWithKey (a :: rest) k = some a := by
        unfold childWithKey
        rw [List.find?_cons, show decide (a.item_index = k) = true by simp [ha]]
      simp [mapChild, ha, h a hak]
    · have hak : ∀ c, childWithKey rest k = some c →
          childWithKey (a :: rest) k = some c := by
        intro c hc
        unfold childWithKey at hc ⊢
        rw [List.find?_cons, show decide (a.item_index = k) = false by simp [ha]]
        exact hc
      simp only [mapChild, if_neg ha]
      rw [ih (fun c hc => h c (hak c hc))]

theorem expandSim_eq (pp : List Nat) :
    ∀ (t parent n : TreeNode) (P : Nat),
      getNodeAt t pp = some parent →
      absPosition t pp n.item_index = some P →
      expandSim t pp n = (bumpInsert t pp n, P) := by
  induction pp with
  | nil =>
    intro t parent n P h hP
    cases t with
    | mk ii cc ch =>
      simp only [absPosition] at hP
      injection hP with hP
      simp [expandSim, bumpInsert, hP]
  | cons k ks ih =>
    intro t parent n P h hP
    cases t with
    | mk ii cc ch =>
      simp only [getNodeAt, TreeNode.children] at h
      cases hck : childWithKey ch k with
      | none => rw [hck] at h; cases h
      | some c =>
        rw [hck] at h
        rw [absPosition_cons ii cc ch k ks n.item_index c hck] at hP
        cases hrec : absPosition c ks n.item_index with
        | none => rw [hrec] at hP; cases hP
        | some Q =>
          rw [hrec] at hP
          injection hP with hP
          have hsim := ih c parent n Q h hrec
          show (match childWithKey ch k with
            | some c =>
              let r := expandSim c ks n
              (TreeNode.mk ii (cc + n.child_count) (mapChild ch k (fun _ => r.1)),
                r.2 + (relative_position
                  (TreeNode.mk ii cc (mapChild ch k (fun _ => r.1))) k + 1))
            | none => (TreeNode.mk ii cc ch, 0)) = _
          rw [hck]
          simp only [hsim]
          have hmap : mapChild ch k (fun _ => bumpInsert c ks n) =
              mapChild ch k (fun d => bumpInsert d ks n) := by
            refine mapChild_ext ch k _ _ ?_
            intro d hd
            rw [hck] at hd
            injection hd with hd
            rw [hd]
          rw [hmap]
          have hrel : relative_position
              (TreeNode.mk ii cc (mapChild ch k (fun d => bumpInsert d ks n))) k =
              relative_position (TreeNode.mk ii cc ch) k :=
            relative_position_congr_children _ _ _ _ _ _ k
              (takeWhile_mapChild ch k _ (fun x => bumpInsert_item_index x ks n))
          rw [hrel]
          have hP2 : relative_position (TreeNode.mk ii cc ch) k + 1 + Q = P := hP
          have harith : Q + (relative_position (TreeNode.mk ii cc ch) k + 1) = P := by
            omega
          rw [harith]
          rfl

theorem collapseSim_eq (pp : List Nat) :
    ∀ (t parent : TreeNode) (key count P : Nat),
      getNodeAt t pp = some parent →
      absPosition t pp key = some P →
      collapseSim t pp key count = (bumpRemove t pp key count, P) := by
  induction pp with
  | nil =>
    intro t parent key count P h hP
    cases t with
    | mk ii cc ch =>
      simp only [absPosition] at hP
      injection hP with hP
      simp [collapseSim, bumpRemove, hP]
  | cons k ks ih =>
    intro t parent key count P h hP
    cases t with
    | mk ii cc ch =>
      simp only [getNodeAt, TreeNode.children] at h
      cases hck : childWithKey ch k with
      | none => rw [hck] at h; cases h
      | some c =>
        rw [hck] at h
        rw [absPosition_cons ii cc ch k ks key c hck] at hP
        cases hrec : absPosition c ks key with
        | none => rw [hrec] at hP; cases hP
        | some Q =>
          rw [hrec] at hP
          injection hP with hP
          have hsim := ih c parent key count Q h hrec
          show (match childWithKey ch k with
            | some c =>
              let r := collapseSim c ks key count
              (TreeNode.mk ii (cc - count) (mapChild ch k (fun _ => r.1)),
                r.2 + (relative_position
                  (TreeNode.mk ii cc (mapChild ch k (fun _ => r.1))) k + 1))
            | none => (TreeNode.mk ii cc ch, 0)) = _
          rw [hck]
          simp only [hsim]
          have hmap : mapChild ch k (fun _ => bumpRemove c ks key count) =
              mapChild ch k (fun d => bumpRemove d ks key count) := by
            refine mapChild_ext ch k _ _ ?_
            intro d hd
            rw [hck] at hd
            injection hd with hd
            rw [hd]
          rw [hmap]
          have hrel : relative_position
              (TreeNode.mk ii cc (mapChild ch k (fun d => bumpRemove d ks key count))) k =
              relative_position (TreeNode.mk ii cc ch) k :=
            relative_position_congr_children _ _ _ _ _ _ k
              (takeWhile_mapChild ch k _ (fun x => bumpRemove_item_index x ks key count))
          rw [hrel]
          have hP2 : relative_position (TreeNode.mk ii cc ch) k + 1 + Q = P := hP
          have harith : Q + (relative_position (TreeNode.mk ii cc ch) k + 1) = P := by
            omega
          rw [harith]
          rfl

end Packetry
